import Mathlib

/-!
Verification of the TaskLattice core against its natural-language
specification.

This file shallowly embeds the relevant parts of the TaskLattice Python
sources (`tasklattice/lattice.py`, `tasklattice/core.py`,
`tasklattice/run/materialize.py`, `tasklattice/run/plan.py`,
`tasklattice/source.py`, `tasklattice/render.py`,
`tasklattice/placeholder/*.py`, `tasklattice/runners/local.py`) as
executable Lean definitions, and proves or refutes the specification
claims about them.

Modelling conventions:
* Python `dict` values are insertion-ordered association lists with
  unique keys; assignment to an existing key updates in place, a new
  key is appended at the end.
* `ValueLiteral = str | int | float | bool` becomes the inductive
  `Value`; Python floats are modelled exactly by rationals (no claim in
  scope depends on binary rounding or NaN).
* Python `==` on literals (where `True == 1 == 1.0`) is `pyEq`.
* Exceptions become `Except String`.
-/

set_option maxHeartbeats 1000000
set_option maxRecDepth 100000

namespace TaskLattice

/-- Model of `ValueLiteral` from `tasklattice/core.py`:
`str | int | float | bool` (floats modelled by rationals). -/
inductive Value where
  | vStr (s : String)
  | vInt (n : Int)
  | vFloat (q : ℚ)
  | vBool (b : Bool)
  deriving DecidableEq, Repr

/-- Numeric view used by Python `==`: ints, floats and bools are
comparable as numbers (`True == 1`), strings are not numbers. -/
def Value.toRat? : Value → Option ℚ
  | .vInt n => some (n : ℚ)
  | .vFloat q => some q
  | .vBool b => some (if b then 1 else 0)
  | .vStr _ => none

/-- Python `==` on `ValueLiteral`s: strings compare by content with
strings only; ints, floats and bools compare numerically with each
other (so `True == 1` and `1 == 1.0`). -/
def pyEq (a b : Value) : Bool :=
  match a, b with
  | .vStr s, .vStr t => s == t
  | a, b =>
    match a.toRat?, b.toRat? with
    | some x, some y => x == y
    | _, _ => false

/-- Python `!=` against an optional lookup result (a missing key never
equals a literal). -/
def pyEqOpt (o : Option Value) (v : Value) : Bool :=
  match o with
  | some w => pyEq w v
  | none => false

/-- `ParamName` is identified with its underlying string
(`tasklattice/core.py` compares and hashes `ParamName` by `value`). -/
abbrev ParamName := String

/-- Model of a Python `dict[ParamName, ValueLiteral]` / `SubstitutionMap`:
an insertion-ordered association list with unique keys. -/
abbrev PyMap := List (ParamName × Value)

/-- Python `d[k]` / `d.get(k)`. -/
def plookup : PyMap → ParamName → Option Value
  | [], _ => none
  | (k, v) :: r, key => if k == key then some v else plookup r key

/-- Python `d[k] = v` when `k` is already present: updates in place,
keeping the key's position. -/
def pupdate : PyMap → ParamName → Value → PyMap
  | [], _, _ => []
  | (k, v) :: r, key, nv =>
    if k == key then (k, nv) :: r else (k, v) :: pupdate r key nv

/-- Python `d[k] = v`: update in place when present, append when new. -/
def passign (m : PyMap) (k : ParamName) (v : Value) : PyMap :=
  match plookup m k with
  | some _ => pupdate m k v
  | none => m ++ [(k, v)]

/-- Python `del d[k]` (`dict.pop(k, None)`). -/
def premove : PyMap → ParamName → PyMap
  | [], _ => []
  | (k, v) :: r, key => if k == key then r else (k, v) :: premove r key

/-- The keys of a map, in insertion order. -/
def pkeys (m : PyMap) : List ParamName := m.map Prod.fst

/-- `ConflictPolicy` from `tasklattice/lattice.py`. -/
inductive ConflictPolicy where
  | ERROR
  | FIRST_WINS
  | LAST_WINS
  deriving DecidableEq, Repr

/-- One iteration of the loop body of `_merge` in
`tasklattice/lattice.py`: merge a single `(k, v)` item of `extra` into
`base` honoring a conflict policy. -/
def mergeOne (conflict : ConflictPolicy) (base : PyMap)
    (kv : ParamName × Value) : Except String PyMap :=
  match plookup base kv.1 with
  | some w =>
    if pyEq w kv.2 then .ok base
    else
      match conflict with
      | .ERROR => .error ("conflicting assignments for " ++ kv.1)
      | .FIRST_WINS => .ok base
      | .LAST_WINS => .ok (pupdate base kv.1 kv.2)
  | none => .ok (base ++ [(kv.1, kv.2)])

/-- `_merge(base, extra, conflict=...)` from `tasklattice/lattice.py`:
fold `mergeOne` over the items of `extra` in order; `ERROR` raises at
the first conflicting assignment. -/
def merge (conflict : ConflictPolicy) (base extra : PyMap) :
    Except String PyMap :=
  extra.foldlM (mergeOne conflict) base

/-- The branch body of `_ConstrainedProductOp.apply.dfs` in
`tasklattice/lattice.py`, translated functionally (the Python code
mutates `acc` and restores it on backtrack; values are never `None`, so
the restore is exact and the translation passes `acc` by value).
`dfs` walks the dimensions of `space` depth first; each candidate value
is first checked against an existing assignment under the conflict
policy, and recursion into the remaining dimensions happens only when
`ok` accepts the partial assignment. -/
def dfs (pol : ConflictPolicy) (ok : PyMap → Bool) :
    List (ParamName × List Value) → PyMap → Except String (List PyMap)
  | [], acc => .ok [acc]
  | (k, vs) :: rest, acc =>
    vs.foldlM
      (fun res v =>
        match plookup acc k with
        | some old =>
          if pyEq old v then
            -- existing equal binding: no assignment, prune on `ok acc`
            if ok acc then
              (dfs pol ok rest acc).map (fun ms => res ++ ms)
            else .ok res
          else
            match pol with
            | .ERROR => .error ("conflicting assignments for " ++ k)
            | .FIRST_WINS => .ok res  -- skip this value, keep binding
            | .LAST_WINS =>
              let acc' := pupdate acc k v
              if ok acc' then
                (dfs pol ok rest acc').map (fun ms => res ++ ms)
              else .ok res
        | none =>
          let acc' := acc ++ [(k, v)]
          if ok acc' then
            (dfs pol ok rest acc').map (fun ms => res ++ ms)
          else .ok res)
      []

/-- The operations a `Lattice` pipeline is made of
(`_SeedOp`, `_ConstOp`, `_ProductOp`, `_ZipOp`, `_MapOp`, `_FilterOp`,
`_DedupOp`, `_ConstrainedProductOp` in `tasklattice/lattice.py`). -/
inductive LOp where
  | seed (defaults : PyMap) (conflict : ConflictPolicy)
  | const (m : PyMap) (conflict : ConflictPolicy)
  | product (name : ParamName) (values : List Value)
      (conflict : ConflictPolicy)
  | zip (columns : List ParamName) (rows : List (List Value))
      (conflict : ConflictPolicy)
  | derive (f : PyMap → Option PyMap) (conflict : ConflictPolicy)
  | filter (pred : PyMap → Bool)
  | dedup
  | constrainedProduct (space : List (ParamName × List Value))
      (ok : PyMap → Bool) (conflict : ConflictPolicy)

/-- The dedup key of one map in `_DedupOp.apply`:
`tuple(sorted((k, u[k]) for k in u))`.  Sorting `(ParamName, value)`
tuples compares the `ParamName` components with `<` whenever the map
has two or more (necessarily distinct) keys; `ParamName` defines no
ordering, so Python raises `TypeError` — and the `repr`-fallback
`sorted` in the `except TypeError` arm compares the same keys and
raises the same `TypeError`, which propagates.  Maps with at most one
key are sorted without any comparison. -/
def dedupKey (u : PyMap) : Except String PyMap :=
  if u.length ≥ 2 then
    .error "TypeError: '<' not supported between instances of 'ParamName'"
  else .ok u

/-- Python `==` on dedup keys (tuples of `(ParamName, value)` pairs):
componentwise, values under Python equality. -/
def dedupKeyEq (a b : PyMap) : Bool :=
  a.length == b.length &&
    (List.zip a b).all (fun p => p.1.1 == p.2.1 && pyEq p.1.2 p.2.2)

/-- The loop of `_DedupOp.apply`: keep each map whose key was not seen
before (`seen` membership is by hash and `==`, i.e. `dedupKeyEq`). -/
def dedupLoop (seen : List PyMap) : List PyMap → Except String (List PyMap)
  | [] => .ok []
  | u :: rest => do
    let key ← dedupKey u
    if seen.any (dedupKeyEq key) then
      dedupLoop seen rest
    else do
      let tail ← dedupLoop (key :: seen) rest
      .ok (u :: tail)

/-- `_Op.apply` for each operation (`tasklattice/lattice.py`).  Streams
are finite lists; a raised exception aborts the stream. -/
def LOp.apply : LOp → List PyMap → Except String (List PyMap)
  | .seed defaults conflict, _ => do
    -- `_SeedOp.apply` ignores upstream and yields one map built by
    -- merging the defaults into `{}`
    let base ← merge conflict [] defaults
    .ok [base]
  | .const m conflict, ups =>
    (ups.mapM (fun u => merge conflict u m))
  | .product name values conflict, ups => do
    let groups ← ups.mapM (fun u =>
      values.mapM (fun v => merge conflict u [(name, v)]))
    .ok groups.flatten
  | .zip columns rows conflict, ups => do
    let groups ← ups.mapM (fun u =>
      rows.mapM (fun row => merge conflict u (List.zip columns row)))
    .ok groups.flatten
  | .derive f conflict, ups =>
    ups.mapM (fun u =>
      match f u with
      | some extra => if extra.isEmpty then .ok u else merge conflict u extra
      | none => .ok u)
  | .filter pred, ups => .ok (ups.filter pred)
  | .dedup, ups => dedupLoop [] ups
  | .constrainedProduct space ok conflict, ups => do
    let groups ← ups.mapM (fun u => dfs conflict ok space u)
    .ok groups.flatten

/-- `Lattice.__iter__`: thread the empty upstream through every
operation in order (the seed op ignores the initial upstream). -/
def latticeIter (ops : List LOp) : Except String (List PyMap) :=
  ops.foldlM (fun ups op => op.apply ups) []

/-- The `Lattice` builder state (`_ops` and `_conflict`). -/
structure Lattice where
  ops : List LOp
  conflict : ConflictPolicy

/-- `Lattice()` with no defaults: one seed op, `ERROR` policy. -/
def Lattice.new : Lattice := ⟨[.seed [] .ERROR], .ERROR⟩

/-- `Lattice.set_constants`. -/
def Lattice.set_constants (L : Lattice) (m : PyMap) : Lattice :=
  if m.isEmpty then L else ⟨L.ops ++ [.const m L.conflict], L.conflict⟩

/-- `Lattice.add_product`. -/
def Lattice.add_product (L : Lattice) (name : ParamName)
    (values : List Value) : Lattice :=
  ⟨L.ops ++ [.product name values L.conflict], L.conflict⟩

/-- The row construction of `Lattice.add_zip`:
`rows = tuple(tuple(seq[i] for seq in cols.values()) for i in range(n))`
where `n` is the shared column length (the source validates that all
columns have the same length and raises otherwise; this transpose
agrees with it whenever that validation passes). -/
def zipRows (cols : List (ParamName × List Value)) : List (List Value) :=
  let n := (cols.head?.map (fun c => c.2.length)).getD 0
  (List.range n).map (fun i => cols.filterMap (fun c => c.2.get? i))

/-- `Lattice.add_zip`. -/
def Lattice.add_zip (L : Lattice) (cols : List (ParamName × List Value)) :
    Lattice :=
  if cols.isEmpty then L
  else ⟨L.ops ++ [.zip (cols.map Prod.fst) (zipRows cols) L.conflict],
        L.conflict⟩

/-- `Lattice.filter`. -/
def Lattice.filter (L : Lattice) (pred : PyMap → Bool) : Lattice :=
  ⟨L.ops ++ [.filter pred], L.conflict⟩

/-- `Lattice.dedup`. -/
def Lattice.dedup (L : Lattice) : Lattice :=
  ⟨L.ops ++ [.dedup], L.conflict⟩

/-- The concrete pipeline of spec scenario 3:
`Lattice().set_constants({"a":1}).add_product("b",[10,20])`
`.add_zip({"c":[1,2],"d":[3,4]}).filter(|m| m.b != 20 || m.c != 1)`. -/
def latC2 : Lattice :=
  ((((Lattice.new).set_constants [("a", .vInt 1)]).add_product
        "b" [.vInt 10, .vInt 20]).add_zip
      [("c", [.vInt 1, .vInt 2]), ("d", [.vInt 3, .vInt 4])]).filter
    (fun m =>
      !(pyEqOpt (plookup m "b") (.vInt 20)) ||
        !(pyEqOpt (plookup m "c") (.vInt 1)))

/-- The keys of a constrained-product space, in order. -/
def spaceKeys (space : List (ParamName × List Value)) : List ParamName :=
  space.map Prod.fst

/-- Python `str.replace` on character lists, with explicit fuel so the
recursion is structural: replace every non-overlapping occurrence of
`pat`, scanning left to right and continuing after each replacement.
With `fuel ≥ |s|` the fuel never runs out (each step consumes one unit
of fuel and at least one character), so `replaceChars` below is total
Python semantics for non-empty patterns (every call site in the
embedded code uses a non-empty pattern). -/
def replaceCharsFuel (pat rep : List Char) :
    Nat → List Char → List Char
  | 0, s => s
  | _ + 1, [] => []
  | n + 1, c :: rest =>
    if pat ≠ [] ∧ pat.isPrefixOf (c :: rest) then
      rep ++ replaceCharsFuel pat rep n ((c :: rest).drop pat.length)
    else
      c :: replaceCharsFuel pat rep n rest

/-- Python `str.replace` on character lists. -/
def replaceChars (s pat rep : List Char) : List Char :=
  replaceCharsFuel pat rep s.length s

/-- Python `str.replace` on strings. -/
def pyReplace (s pat rep : String) : String :=
  ⟨replaceChars s.data pat.data rep.data⟩

/-- Python `str.endswith` (suffix test on the character lists). -/
def strEndsWith (s suffix : String) : Bool :=
  suffix.data.isSuffixOf s.data

/-- The newline-policy block of `Materializer.run` in
`tasklattice/run/materialize.py` (lines 305–313): when `plan.newline`
is set, normalize `\r\n` then `\r` to `\n`, convert `\n` to the
configured newline unless it already is `\n`, and append one trailing
newline when `ensure_trailing_newline` holds and it is missing; when
`plan.newline` is unset the rendered text is written unchanged. -/
def applyNewlinePolicy (newline : Option String) (ensure : Bool)
    (text : String) : String :=
  match newline with
  | none => text
  | some nl =>
    let a := pyReplace (pyReplace text "\r\n" "\n") "\r" "\n"
    let b := if nl == "\n" then a else pyReplace a "\n" nl
    if ensure && !(strEndsWith b nl) then b ++ nl else b

/-- The reference transformation stated by the claim (and by the spec's
§4.F): every `\r\n` and then every remaining `\r` is replaced by `\n`,
then every `\n` is replaced by the configured newline; when
`ensure_trailing_newline` holds and the result does not end with the
configured newline, one copy is appended; unset newline leaves the
text unchanged. -/
def referenceNewline (newline : Option String) (ensure : Bool)
    (text : String) : String :=
  match newline with
  | none => text
  | some nl =>
    let a := pyReplace (pyReplace text "\r\n" "\n") "\r" "\n"
    let b := pyReplace a "\n" nl
    if ensure && !(strEndsWith b nl) then b ++ nl else b

/-- The newline-policy block of the legacy `Materializer.run` in
`tasklattice/materialize.py` (lines 200–208).  Its Python source
contains doubly-escaped patterns: `'\\r\\n'` and `'\\n'` are the
two-to-four character strings backslash-r-backslash-n and
backslash-n, not CR/LF — the function replaces literal backslash
sequences and leaves real newline characters alone. -/
def legacyNewlinePolicy (newline : Option String) (ensure : Bool)
    (text : String) : String :=
  match newline with
  | none => text
  | some nl =>
    let a := pyReplace (pyReplace text "\\r\\n" "\\n") "\\r" "\\n"
    let b := if nl == "\\n" then a else pyReplace a "\\n" nl
    if ensure && !(strEndsWith b nl) then b ++ nl else b

/-- `fnmatch.fnmatch` pattern matching with explicit fuel (structural
recursion; `fuel = |pat| + |name| + 1` always suffices because every
step consumes a pattern or name character).  `fnmatch.translate` maps
`*` to `.*` — matching any characters *including* `/` — and `?` to any
single character; other characters match literally (POSIX `normcase`
is the identity).  None of the default glob lists use `[...]` classes,
so those are not modelled. -/
def globMatchFuel : Nat → List Char → List Char → Bool
  | 0, _, _ => false
  | _ + 1, [], s => s.isEmpty
  | n + 1, p :: ps, s =>
    if p == '*' then
      globMatchFuel n ps s ||
        (match s with
         | [] => false
         | _ :: s' => globMatchFuel n (p :: ps) s')
    else
      match s with
      | [] => false
      | c :: s' => (p == '?' || p == c) && globMatchFuel n ps s'

/-- `fnmatch.fnmatch(name, pat)` on POSIX. -/
def fnmatch (name pat : String) : Bool :=
  globMatchFuel (pat.data.length + name.data.length + 1) pat.data name.data

/-- `RUN_METADATA_DIR` from `tasklattice/constants.py`. -/
def RUN_METADATA_DIR : String := "_tl"

/-- The default `include_globs` of `RunPlan.__init__`
(`tasklattice/run/plan.py`). -/
def DEFAULT_INCLUDE_GLOBS : List String := ["**/*"]

/-- `_DEFAULT_EXCLUDE_GLOBS` from `tasklattice/run/plan.py` — note the
last entry is built as `"." + RUN_METADATA_DIR + "/**"`, i.e. the
pattern `._tl/**`. -/
def DEFAULT_EXCLUDE_GLOBS : List String :=
  [".git/**", ".hg/**", ".svn/**", "__pycache__/**", ".DS_Store",
   "Thumbs.db", "." ++ RUN_METADATA_DIR ++ "/**"]

/-- The per-file filter of `_copy_tree` in
`tasklattice/run/materialize.py` (lines 457–484): a prototype file at
POSIX relative path `relpath` is copied/linked into the run directory
iff it matches some include glob (an empty include list admits all),
matches no exclude glob, and is not a declared render target
(`deny`). -/
def copyDecision (includes excludes deny : List String)
    (relpath : String) : Bool :=
  (includes.isEmpty || includes.any (fun pat => fnmatch relpath pat)) &&
    !(!excludes.isEmpty && excludes.any (fun pat => fnmatch relpath pat)) &&
    !(deny.contains relpath)

/-- `RunStatus` from `tasklattice/run/io.py` / `tasklattice/runners`. -/
inductive RunStatus where
  | STAGED
  | QUEUED
  | RUNNING
  | SUCCEEDED
  | FAILED
  | CANCELLED
  | TIMED_OUT
  deriving DecidableEq, Repr, Fintype

/-- `RunStatus.is_terminal`: the terminal set
`{succeeded, failed, cancelled, timed_out}`. -/
def RunStatus.isTerminal : RunStatus → Bool
  | .SUCCEEDED | .FAILED | .CANCELLED | .TIMED_OUT => true
  | _ => false

/-- The state the `LocalRunner` keeps for one run directory: the
persisted `run.json` state (all of whose writes are serialized by the
per-run lock), whether a `_PendingItem` for the run sits in the pending
FIFO, whether a `_RunRecord` is in the active registry, and the two
in-memory handle flags the monitor consults when classifying an exit
(`_timed_out`, `_cancel_requested`). -/
structure RunnerRunState where
  persisted : Option RunStatus
  pending : Bool
  active : Bool
  timedOut : Bool
  cancelRequested : Bool
  deriving DecidableEq, Repr, Fintype

/-- The `run.json`-affecting operations of `tasklattice/runners/local.py`
for a single run directory:
* `submit` — `LocalRunner.submit` writes `queued` and creates a fresh
  handle/pending item (it supports resubmission, incrementing the
  stored `attempt`); it applies to a run this runner is not currently
  tracking.
* `spawnOk` — `_spawn_from_pending_locked` consumes the pending item,
  registers the active record and writes `running`.
* `spawnFail` — the spawn-failure arms in `submit` and the monitor
  dispatch loop write `failed`.
* `monitorTimeout` — the monitor's deadline branch signals the process
  and sets the handle's timeout flag (it appends an event but does not
  change the persisted `state` field).
* `monitorExit rc` — the monitor's finalization on process exit writes
  `timed_out` / `cancelled` / `succeeded` / `failed`.
* `cancelQueued` — `_cancel_queued` removes the pending item and writes
  `cancelled`.
* `cancelRunningFlag` — `_cancel_running` records the cancel request
  and signals the process; the final write is left to the monitor.
* `finalizeFailed` / `finalizeCancelled` — `_finalize_unknown_exit`
  (used by `attach`, passive `status()` and `_cancel_attached`): a
  no-op when the persisted state is already terminal; its call sites
  only reach it for runs they observed as not queued. -/
inductive RunnerOp where
  | submit
  | spawnOk
  | spawnFail
  | monitorTimeout
  | monitorExit (rc : Int)
  | cancelQueued
  | cancelRunningFlag
  | finalizeFailed
  | finalizeCancelled
  deriving DecidableEq, Repr

/-- Whether an operation is a (re)submission. -/
def RunnerOp.isSubmit : RunnerOp → Bool
  | .submit => true
  | _ => false

/-- Whether the persisted run state is terminal. -/
def persistedTerminal (s : RunnerRunState) : Bool :=
  match s.persisted with
  | some st => st.isTerminal
  | none => false

/-- One runner operation on one run's state; operations whose guard
does not hold (e.g. spawning a run that is not pending) leave the
state unchanged, mirroring the code paths that return without
writing. -/
def runnerStep (s : RunnerRunState) : RunnerOp → RunnerRunState
  | .submit =>
    if !s.pending && !s.active then
      { persisted := some .QUEUED, pending := true, active := false,
        timedOut := false, cancelRequested := false }
    else s
  | .spawnOk =>
    if s.pending then
      { s with pending := false, active := true,
               persisted := some .RUNNING }
    else s
  | .spawnFail =>
    if s.pending then
      { s with pending := false, persisted := some .FAILED }
    else s
  | .monitorTimeout =>
    if s.active then { s with timedOut := true } else s
  | .monitorExit rc =>
    if s.active then
      { s with active := false,
               persisted := some
                 (if s.timedOut then .TIMED_OUT
                  else if s.cancelRequested then .CANCELLED
                  else if rc == 0 then .SUCCEEDED else .FAILED) }
    else s
  | .cancelQueued =>
    if s.pending then
      { s with pending := false, persisted := some .CANCELLED }
    else s
  | .cancelRunningFlag =>
    if s.active then { s with cancelRequested := true } else s
  | .finalizeFailed =>
    if !s.pending && !(persistedTerminal s) then
      { s with persisted := some .FAILED }
    else s
  | .finalizeCancelled =>
    if !s.pending && !(persistedTerminal s) then
      { s with persisted := some .CANCELLED }
    else s

/-- Before any runner operation: no `run.json`, nothing queued or
active. -/
def initRunState : RunnerRunState :=
  ⟨none, false, false, false, false⟩

/-- JSON values as produced by the fingerprint payloads of
`tasklattice/run/materialize.py` (`_hash_stable` serializes lists,
tuples, dicts, strings, ints, floats, bools and `None`). -/
inductive Json where
  | jNull
  | jBool (b : Bool)
  | jInt (n : Int)
  | jFloat (q : ℚ)
  | jStr (s : String)
  | jArr (items : List Json)
  | jObj (fields : List (String × Json))
  deriving Repr

/-- The hex digits, lowercase. -/
def hexChars : List Char := "0123456789abcdef".data

/-- One lowercase hex digit. -/
def hexDigit (n : Nat) : Char := hexChars.getD (n % 16) '0'

/-- Four hex digits (for `\uXXXX` escapes). -/
def hex4 (n : Nat) : List Char :=
  [hexDigit (n / 4096), hexDigit (n / 256), hexDigit (n / 16), hexDigit n]

/-- `json.dumps` escaping of one character with the default
`ensure_ascii=True`: the two-character escapes for quote, backslash
and the common control characters, `\uXXXX` for other control and all
non-ASCII characters, and a UTF-16 surrogate pair for characters
beyond the BMP. -/
def jsonEscapeChar (c : Char) : List Char :=
  let n := c.toNat
  if c = '"' then ['\\', '"']
  else if c = '\\' then ['\\', '\\']
  else if c = '\n' then ['\\', 'n']
  else if c = '\r' then ['\\', 'r']
  else if c = '\t' then ['\\', 't']
  else if n = 8 then ['\\', 'b']
  else if n = 12 then ['\\', 'f']
  else if n < 32 then '\\' :: 'u' :: hex4 n
  else if n < 128 then [c]
  else if n < 65536 then '\\' :: 'u' :: hex4 n
  else
    ('\\' :: 'u' :: hex4 (55296 + (n - 65536) / 1024)) ++
      ('\\' :: 'u' :: hex4 (56320 + (n - 65536) % 1024))

/-- `json.dumps` escaping of a string (content only). -/
def jsonEscape (s : String) : List Char :=
  (s.data.map jsonEscapeChar).flatten

/-- Model of `repr(float)` for the rational stand-in: integral values
print as `n.0` like Python; other values print sign, integer part and
up to 17 fractional digits.  (Python's shortest-round-trip repr of a
binary float has no exact rational counterpart; no claim in scope
evaluates a float fingerprint.) -/
def pyFloatRepr (q : ℚ) : String :=
  if q.den = 1 then toString q.num ++ ".0"
  else
    let sgn := if q < 0 then "-" else ""
    let a : ℚ := |q|
    let ip : Nat := a.floor.toNat
    let digits := (List.range 17).foldl
      (fun (st : ℚ × List Char) _ =>
        let r := st.1 * 10
        let d : Nat := r.floor.toNat
        (r - (d : ℚ), st.2 ++ [hexDigit d]))
      (a - (ip : ℚ), [])
    sgn ++ toString ip ++ "." ++ ⟨digits.2⟩

/-- Ordering of dumped JSON object fields by key
(`json.dumps(sort_keys=True)` sorts dict keys with Python string `<`,
which is code-point lexicographic like Lean's `String` order). -/
def fieldLe (a b : String × List Char) : Prop := a.1 ≤ b.1

instance : DecidableRel fieldLe := fun a b => by
  unfold fieldLe; infer_instance

/-- `json.dumps(obj, sort_keys=True, separators=(",", ":"))` with
explicit fuel so the recursion is structural; `fuel = sizeOf j`
always suffices because every child's `sizeOf` is strictly below its
parent's while the fuel drops by one per nesting level.  Compact
separators, object keys sorted, `ensure_ascii` escaping.  (Object
fields are dumped first and then sorted; the comparator reads only
the key, so this equals sorting the fields first.) -/
def jsonDumpsFuel : Nat → Json → List Char
  | 0, _ => []
  | _ + 1, .jNull => "null".data
  | _ + 1, .jBool true => "true".data
  | _ + 1, .jBool false => "false".data
  | _ + 1, .jInt n => (toString n).data
  | _ + 1, .jFloat q => (pyFloatRepr q).data
  | _ + 1, .jStr s => '"' :: (jsonEscape s ++ ['"'])
  | n + 1, .jArr items =>
    '[' :: (List.intercalate [',']
      (items.map (jsonDumpsFuel n)) ++ [']'])
  | n + 1, .jObj fields =>
    let dumped := fields.map (fun kv => (kv.1, jsonDumpsFuel n kv.2))
    Char.ofNat 123 ::
      (List.intercalate [',']
        ((List.insertionSort fieldLe dumped).map
          (fun kv => '"' :: (jsonEscape kv.1 ++ ['"', ':'] ++ kv.2))) ++
        [Char.ofNat 125])

mutual
/-- Structural size of a JSON value (strictly larger than any child's,
so it is a sufficient fuel for `jsonDumpsFuel`). -/
def jsonSize : Json → Nat
  | .jArr items => 1 + jsonListSize items
  | .jObj fields => 1 + jsonFieldsSize fields
  | _ => 1

/-- Structural size of a JSON array body. -/
def jsonListSize : List Json → Nat
  | [] => 0
  | j :: r => jsonSize j + jsonListSize r + 1

/-- Structural size of a JSON object body. -/
def jsonFieldsSize : List (String × Json) → Nat
  | [] => 0
  | kv :: r => jsonSize kv.2 + jsonFieldsSize r + 1
end

/-- `json.dumps(obj, sort_keys=True, separators=(",", ":"))` from
`_hash_stable` in `tasklattice/run/materialize.py`. -/
def jsonDumps (j : Json) : List Char := jsonDumpsFuel (jsonSize j) j

/-- UTF-8 encoding of one character (code points are scalar values, so
the four standard ranges cover everything). -/
def utf8Char (c : Char) : List Nat :=
  let n := c.toNat
  if n < 128 then [n]
  else if n < 2048 then [192 + n / 64, 128 + n % 64]
  else if n < 65536 then
    [224 + n / 4096, 128 + (n / 64) % 64, 128 + n % 64]
  else
    [240 + n / 262144, 128 + (n / 4096) % 64, 128 + (n / 64) % 64,
     128 + n % 64]

/-- `str.encode("utf-8")`: the byte list of a character list. -/
def utf8Encode (s : List Char) : List Nat :=
  (s.map utf8Char).flatten

/-- Truncate `x` to 32 bits. -/
def w32 (x : Nat) : Nat := x % 4294967296

/-- 32-bit rotate right. -/
def rotr (n x : Nat) : Nat := w32 ((x >>> n) ||| (x <<< (32 - n)))

/-- SHA-256 Σ₀. -/
def bigSigma0 (x : Nat) : Nat := rotr 2 x ^^^ rotr 13 x ^^^ rotr 22 x

/-- SHA-256 Σ₁. -/
def bigSigma1 (x : Nat) : Nat := rotr 6 x ^^^ rotr 11 x ^^^ rotr 25 x

/-- SHA-256 σ₀. -/
def smallSigma0 (x : Nat) : Nat := rotr 7 x ^^^ rotr 18 x ^^^ (x >>> 3)

/-- SHA-256 σ₁. -/
def smallSigma1 (x : Nat) : Nat := rotr 17 x ^^^ rotr 19 x ^^^ (x >>> 10)

/-- The SHA-256 round constants (decimal). -/
def K256 : List Nat :=
  [1116352408, 1899447441, 3049323471,
   3921009573, 961987163, 1508970993,
   2453635748, 2870763221, 3624381080,
   310598401, 607225278, 1426881987,
   1925078388, 2162078206, 2614888103,
   3248222580, 3835390401, 4022224774,
   264347078, 604807628, 770255983,
   1249150122, 1555081692, 1996064986,
   2554220882, 2821834349, 2952996808,
   3210313671, 3336571891, 3584528711,
   113926993, 338241895, 666307205,
   773529912, 1294757372, 1396182291,
   1695183700, 1986661051, 2177026350,
   2456956037, 2730485921, 2820302411,
   3259730800, 3345764771, 3516065817,
   3600352804, 4094571909, 275423344,
   430227734, 506948616, 659060556,
   883997877, 958139571, 1322822218,
   1537002063, 1747873779, 1955562222,
   2024104815, 2227730452, 2361852424,
   2428436474, 2756734187, 3204031479,
   3329325298]

/-- The SHA-256 initial hash state (decimal). -/
def H256 : List Nat :=
  [1779033703, 3144134277, 1013904242,
   2773480762, 1359893119, 2600822924,
   528734635, 1541459225]

/-- Big-endian 32-bit words from a byte list (64 bytes → 16 words). -/
def wordsOfBytes : List Nat → List Nat
  | b0 :: b1 :: b2 :: b3 :: rest =>
    (b0 * 16777216 + b1 * 65536 + b2 * 256 + b3) :: wordsOfBytes rest
  | _ => []

/-- One step of the SHA-256 message-schedule extension; the state list
keeps the most recent word first. -/
def scheduleStep (r : List Nat) : List Nat :=
  w32 (smallSigma1 (r.getD 1 0) + r.getD 6 0 +
    smallSigma0 (r.getD 14 0) + r.getD 15 0) :: r

/-- Extend 16 words to the 64-word message schedule. -/
def buildSchedule (w16 : List Nat) : List Nat :=
  ((List.range 48).foldl (fun r _ => scheduleStep r) w16.reverse).reverse

/-- One SHA-256 compression round on the `[a,…,h]` state. -/
def compressRound (st : List Nat) (kw : Nat × Nat) : List Nat :=
  let a := st.getD 0 0
  let b := st.getD 1 0
  let c := st.getD 2 0
  let d := st.getD 3 0
  let e := st.getD 4 0
  let f := st.getD 5 0
  let g := st.getD 6 0
  let h := st.getD 7 0
  let ch := (e &&& f) ^^^ ((e ^^^ 4294967295) &&& g)
  let maj := (a &&& b) ^^^ (a &&& c) ^^^ (b &&& c)
  let t1 := w32 (h + bigSigma1 e + ch + kw.1 + kw.2)
  let t2 := w32 (bigSigma0 a + maj)
  [w32 (t1 + t2), a, b, c, w32 (d + t1), e, f, g]

/-- Compress one 64-byte chunk into the running hash state. -/
def compressChunk (H : List Nat) (chunk : List Nat) : List Nat :=
  let ws := buildSchedule (wordsOfBytes chunk)
  let st := (K256.zip ws).foldl compressRound H
  List.zipWith (fun x y => w32 (x + y)) H st

/-- SHA-256 padding: `0x80`, zeros to 56 mod 64, then the bit length
as eight big-endian bytes. -/
def sha256pad (msg : List Nat) : List Nat :=
  let L := msg.length
  let z := (64 + 56 - ((L + 1) % 64)) % 64
  let bits := 8 * L
  msg ++ [128] ++ List.replicate z 0 ++
    [bits >>> 56 % 256, bits >>> 48 % 256, bits >>> 40 % 256,
     bits >>> 32 % 256, bits >>> 24 % 256, bits >>> 16 % 256,
     bits >>> 8 % 256, bits % 256]

/-- Split a byte list into 64-byte chunks (fuel-based for structural
recursion; `fuel = |l|` suffices). -/
def chunks64Fuel : Nat → List Nat → List (List Nat)
  | 0, _ => []
  | _ + 1, [] => []
  | n + 1, l => l.take 64 :: chunks64Fuel n (l.drop 64)

/-- Split a byte list into 64-byte chunks. -/
def chunks64 (l : List Nat) : List (List Nat) := chunks64Fuel l.length l

/-- The SHA-256 state after absorbing a byte message. -/
def sha256State (msg : List Nat) : List Nat :=
  (chunks64 (sha256pad msg)).foldl compressChunk H256

/-- Big-endian bytes of one 32-bit word. -/
def word32Bytes (w : Nat) : List Nat :=
  [w >>> 24 % 256, w >>> 16 % 256, w >>> 8 % 256, w % 256]

/-- SHA-256 digest (32 bytes) of a byte message. -/
def sha256 (msg : List Nat) : List Nat :=
  ((sha256State msg).map word32Bytes).flatten

/-- Two lowercase hex characters of one byte (`hexdigest`). -/
def byteHex (b : Nat) : List Char := [hexDigit (b / 16), hexDigit b]

/-- `hashlib.sha256(...).hexdigest()` of a byte message. -/
def sha256hex (msg : List Nat) : String :=
  ⟨((sha256 msg).map byteHex).flatten⟩

/-- Python `s[:n]`. -/
def strTake (s : String) (n : Nat) : String := ⟨s.data.take n⟩

/-- `_hash_stable(obj)` from `tasklattice/run/materialize.py`: the
first 12 hex characters of SHA-256 over the canonical JSON dump
(sorted keys, compact separators) of the payload. -/
def hashStable (j : Json) : String :=
  strTake (sha256hex (utf8Encode (jsonDumps j))) 12

/-- Ordering of `(stringified key, value)` items by key
(`items.sort(key=lambda kv: kv[0])`). -/
def keyLe (a b : String × Value) : Prop := a.1 ≤ b.1

instance : DecidableRel keyLe := fun a b => by
  unfold keyLe; infer_instance

/-- `items.sort(key=lambda kv: kv[0])`: ascending, deterministic
because the keys of a mapping are distinct. -/
def sortItems (items : List (String × Value)) : List (String × Value) :=
  List.insertionSort keyLe items

/-- A substitution value as the JSON scalar `json.dumps` writes for
it. -/
def valueJson : Value → Json
  | .vStr s => .jStr s
  | .vInt n => .jInt n
  | .vFloat q => .jFloat q
  | .vBool b => .jBool b

/-- `[(str(k), v) for k, v in subs.items()]` — `str(ParamName)` is the
underlying string, the identity in this model. -/
def subsItems (subs : PyMap) : List (String × Value) := subs

/-- `_subs_fingerprint(subs)` from `tasklattice/run/materialize.py`:
items sorted by stringified key, then `_hash_stable`. -/
def subs_fingerprint (subs : PyMap) : String :=
  hashStable (.jArr ((sortItems (subsItems subs)).map
    (fun kv => .jArr [.jStr kv.1, valueJson kv.2])))

/-- The plan knobs `_plan_fingerprint` hashes
(`tasklattice/run/plan.py` / `run/materialize.py`):
`str(LinkMode)` is the enum's string value. -/
structure RunPlanKnobs where
  include_globs : List String
  exclude_globs : List String
  newline : Option String
  ensure_trailing_newline : Bool
  link_mode : String
  render_pairs : List (String × String)

/-- The payload dict of `_plan_fingerprint`, fields in the order the
source writes them (the dump sorts the keys). -/
def planPayload (p : RunPlanKnobs) : Json :=
  .jObj
    [("include", .jArr (p.include_globs.map .jStr)),
     ("exclude", .jArr (p.exclude_globs.map .jStr)),
     ("newline",
       match p.newline with
       | some s => .jStr s
       | none => .jNull),
     ("ensure_trailing_newline", .jBool p.ensure_trailing_newline),
     ("link_mode", .jStr p.link_mode),
     ("render_pairs", .jArr (p.render_pairs.map
       (fun ab => .jArr [.jStr ab.1, .jStr ab.2])))]

/-- `_plan_fingerprint(plan)`. -/
def plan_fingerprint (p : RunPlanKnobs) : String :=
  hashStable (planPayload p)

/-- `_make_run_id(plan_fp, subs_fp)`. -/
def make_run_id (plan_fp subs_fp : String) : String :=
  plan_fp ++ "-" ++ subs_fp

/-- The canonical subs blob the claim describes: the JSON encoding of
the `(stringified key, value)` items sorted by key, with compact
separators. -/
def canonicalSubsBlob (subs : PyMap) : List Char :=
  jsonDumps (.jArr ((sortItems subs).map
    (fun kv => .jArr [.jStr kv.1, valueJson kv.2])))

/-- Key ordering on substitution items, strict. -/
def keyLt (a b : String × Value) : Prop := a.1 < b.1

instance : IsTotal (String × Value) keyLe := ⟨fun a b => le_total a.1 b.1⟩

instance : IsTrans (String × Value) keyLe :=
  ⟨fun _ _ _ hab hbc => le_trans hab hbc⟩

instance : IsAntisymm (String × Value) keyLt :=
  ⟨fun a _ h1 h2 => absurd (lt_trans h1 h2) (lt_irrefl a.1)⟩

/-- The line-boundary characters of Python `str.splitlines`:
`\n`, `\r` (and the combined `\r\n`), `\v`, `\f`, `\x1c`, `\x1d`,
`\x1e`, `\x85`, ` `, ` `. -/
def isLineBreakChar (c : Char) : Bool :=
  c == '\n' || c == '\r' || c.toNat == 11 || c.toNat == 12 ||
    c.toNat == 28 || c.toNat == 29 || c.toNat == 30 || c.toNat == 133 ||
    c.toNat == 8232 || c.toNat == 8233

/-- Whether `c` begins a `\r\n` pair (lookahead into the rest of the
text): such a `\r` does not complete a line by itself — the following
`\n` does. -/
def isCrOfCrLf (c : Char) (rest : List Char) : Bool :=
  c == '\r' && rest.head? == some '\n'

/-- The worker of `str.splitlines(keepends=True)`: accumulate the
current line and emit it (terminator included) at each boundary; the
`\r` of a `\r\n` pair is accumulated and the `\n` closes the line, so
`\r\n` acts as one boundary; a non-empty unterminated final line is
emitted as well. -/
def splitAux : List Char → List Char → List (List Char)
  | [], acc => if acc.isEmpty then [] else [acc]
  | c :: rest, acc =>
    if isCrOfCrLf c rest then splitAux rest (acc ++ [c])
    else if isLineBreakChar c then (acc ++ [c]) :: splitAux rest []
    else splitAux rest (acc ++ [c])

/-- `str.splitlines(keepends=True)`. -/
def splitlines (s : List Char) : List (List Char) := splitAux s []

/-- The first line of `s`, terminator included (`splitlines`'s head
when `s` is non-empty). -/
def firstLine : List Char → List Char
  | [] => []
  | c :: rest =>
    if isCrOfCrLf c rest then c :: firstLine rest
    else if isLineBreakChar c then [c]
    else c :: firstLine rest

/-- Everything after the first line of `s`. -/
def restAfterLine : List Char → List Char
  | [] => []
  | c :: rest =>
    if isCrOfCrLf c rest then restAfterLine rest
    else if isLineBreakChar c then rest
    else restAfterLine rest

/-- Whether the first line of `s` ends in a terminator (equivalently,
whether `s` contains any line-boundary character). -/
def firstTerminated : List Char → Bool
  | [] => false
  | c :: rest =>
    if isLineBreakChar c then true else firstTerminated rest

/-- Whether the text ends with a completed line terminator. -/
def endsWithLineBreak (s : List Char) : Bool :=
  match s.getLast? with
  | some c => isLineBreakChar c
  | none => false

/-- The running end positions of the parts, i.e. the loop
`pos += len(part); starts.append(pos)` of `_compute_line_starts`. -/
def cumLengths : List (List Char) → Nat → List Nat
  | [], _ => []
  | p :: r, pos => (pos + p.length) :: cumLengths r (pos + p.length)

/-- `_compute_line_starts` from `tasklattice/source.py`: `[0]` followed
by the cumulative part lengths of `splitlines(keepends=True)` (note the
final text length is always appended, terminated or not). -/
def computeLineStarts (s : List Char) : List Nat :=
  0 :: cumLengths (splitlines s) 0

/-- `bisect.bisect_right` with explicit fuel (the interval shrinks at
every step, so `fuel = |a|` suffices): binary search for the insertion
point to the right of `x`. -/
def bisectRightFuel (a : List Nat) (x : Nat) : Nat → Nat → Nat → Nat
  | 0, lo, _ => lo
  | fuel + 1, lo, hi =>
    if lo < hi then
      if x < a.getD ((lo + hi) / 2) 0 then
        bisectRightFuel a x fuel lo ((lo + hi) / 2)
      else bisectRightFuel a x fuel ((lo + hi) / 2 + 1) hi
    else lo

/-- `bisect.bisect_right(a, x)`. -/
def bisect_right (a : List Nat) (x : Nat) : Nat :=
  bisectRightFuel a x a.length 0 a.length

/-- `Source.pos_to_line_col` from `tasklattice/source.py`: validate
`0 ≤ pos ≤ len(contents)`, then 1-indexed
`(line_idx + 1, pos - line_starts[line_idx] + 1)` with
`line_idx = bisect_right(line_starts, pos) - 1`. -/
def pos_to_line_col (s : List Char) (pos : Nat) :
    Except String (Nat × Nat) :=
  if pos ≤ s.length then
    let ls := computeLineStarts s
    let lineIdx := bisect_right ls pos - 1
    .ok (lineIdx + 1, pos - ls.getD lineIdx 0 + 1)
  else .error "pos out of range"

/-- `Source.slice` from `tasklattice/source.py`: bounds check, then
Python slicing `contents[start:end]`. -/
def slice (s : List Char) (start stop : Nat) :
    Except String (List Char) :=
  if start ≤ stop ∧ stop ≤ s.length then
    .ok ((s.take stop).drop start)
  else .error "SourceSpan out of bounds for this Source"

/-- The linear scan the claim compares against: walk the first `pos`
characters keeping an editor-style 1-indexed `(line, col)`; a `\r\n`
pair completes a line only after its `\n` (a caret between the two
sits on the old line), every other boundary character completes a line
by itself. -/
def scanLineCol : List Char → Nat → Nat → Nat → Nat × Nat
  | _, 0, line, col => (line, col)
  | [], _, line, col => (line, col)
  | c :: rest, p + 1, line, col =>
    if isCrOfCrLf c rest then scanLineCol rest p line (col + 1)
    else if isLineBreakChar c then scanLineCol rest p (line + 1) 1
    else scanLineCol rest p line (col + 1)

/-- The `(line, col)` a linear scan produces for position `pos`. -/
def linearLineCol (s : List Char) (pos : Nat) : Nat × Nat :=
  scanLineCol s pos 1 1

/-- The number of line starts at or before `pos` (the quantity
`bisect_right(line_starts, pos)` computes on the sorted start
table). -/
def startsLE (s : List Char) (pos : Nat) : Nat :=
  (computeLineStarts s).countP (fun q => q ≤ pos)

/-- Run a sequence of runner operations from the initial state. -/
def runTrace (ops : List RunnerOp) : RunnerRunState :=
  ops.foldl runnerStep initRunState

/-- The invariant the runner maintains for one run: a terminal
persisted state implies the run is no longer pending, and a run is
never simultaneously pending and active. -/
def runnerInv (s : RunnerRunState) : Prop :=
  (persistedTerminal s = true → s.pending = false) ∧
    ¬(s.pending = true ∧ s.active = true)

instance (s : RunnerRunState) : Decidable (runnerInv s) := by
  unfold runnerInv; infer_instance

/-- The four Python classes a `py_type` can be
(`type_str_to_type_python` in `tasklattice/core.py`). -/
inductive PyType where
  | tStr
  | tInt
  | tFloat
  | tBool
  deriving DecidableEq, Repr

/-- Python `type(v)` for a `ValueLiteral` value. -/
def typeOfValue : Value → PyType
  | .vStr _ => .tStr
  | .vInt _ => .tInt
  | .vFloat _ => .tFloat
  | .vBool _ => .tBool

/-- Python `isinstance(v, t)` against the four `py_type` classes:
`bool` is a subclass of `int`, so a boolean is an instance of `int`;
there is no other numeric subtyping for `isinstance`. -/
def isinstancePy (v : Value) : PyType → Bool
  | .tStr => match v with | .vStr _ => true | _ => false
  | .tInt => match v with
    | .vInt _ => true
    | .vBool _ => true
    | _ => false
  | .tFloat => match v with | .vFloat _ => true | _ => false
  | .tBool => match v with | .vBool _ => true | _ => false

/-- The bound checks of `DomainInterval.contains` on a numeric value
(bounds modelled as rationals). -/
def ratInIntervalCheck (q lo hi : ℚ) (il ih : Bool) : Bool :=
  if q < lo ∨ (q = lo ∧ il = false) then false
  else if hi < q ∨ (q = hi ∧ ih = false) then false
  else true

/-- `Domain` from `tasklattice/core.py`: numeric interval with
inclusivity flags, or finite set. -/
inductive DomainL where
  | interval (lower upper : ℚ) (incLo incHi : Bool)
  | domSet (values : List Value)

/-- `DomainInterval.contains` / `DomainSet.contains` from
`tasklattice/core.py`: intervals reject non-numbers and booleans
outright (`not isinstance(value, Number) or isinstance(value, bool)`),
then compare against the bounds; sets demand identity for booleans
(`v is value`) and use Python `==` membership otherwise. -/
def DomainL.contains : DomainL → Value → Bool
  | .interval lo hi il ih, .vInt n => ratInIntervalCheck (n : ℚ) lo hi il ih
  | .interval lo hi il ih, .vFloat q => ratInIntervalCheck q lo hi il ih
  | .interval _ _ _ _, _ => false
  | .domSet vs, .vBool b => vs.any (fun w => w == Value.vBool b)
  | .domSet vs, v => vs.any (fun w => pyEq w v)

/-- `ParamResolved` from `tasklattice/placeholder/model.py` (the
fields `_validate_map` reads); `py_type` is not stored: `__post_init__`
computes it as `type(self.default)`. -/
structure ParamResolvedL where
  name : ParamName
  default : Value
  domain : Option DomainL
  description : Option String

/-- `ParamResolved.py_type` (`__post_init__` sets it to
`type(self.default)`). -/
def ParamResolvedL.py_type (p : ParamResolvedL) : PyType :=
  typeOfValue p.default

/-- `tpt.params.get(sname, None)` on the template parameter dict. -/
def paramsGet : List (ParamName × ParamResolvedL) → ParamName →
    Option ParamResolvedL
  | [], _ => none
  | (k, p) :: rest, n => if k == n then some p else paramsGet rest n

/-- The body of `_validate_map`'s loop (`tasklattice/render.py:27-38`)
for one `(sname, svalue)` item: the parameter must exist; when it has
a domain the domain must contain the value; the value must satisfy
`isinstance(svalue, param.py_type)`. -/
def validateOne (params : List (ParamName × ParamResolvedL))
    (sname : ParamName) (svalue : Value) : Except String Unit :=
  match paramsGet params sname with
  | none => .error ("Parameter name not found: " ++ sname)
  | some param =>
    if (match param.domain with
        | some d => !(DomainL.contains d svalue)
        | none => false) then
      .error "Domain for parameter does not contain value"
    else if !(isinstancePy svalue param.py_type) then
      .error "Attempted to substitute a value of the wrong type"
    else .ok ()

/-- `_validate_map` from `tasklattice/render.py`: validate every item
of the substitution map in order, stopping at the first error. -/
def validateMap (params : List (ParamName × ParamResolvedL)) :
    PyMap → Except String Unit
  | [] => .ok ()
  | (sname, svalue) :: rest =>
    match validateOne params sname svalue with
    | .error e => .error e
    | .ok _ => validateMap params rest

/-- The left curly brace character. -/
def openBrace : Char := '\x7b'

/-- The right curly brace character. -/
def closeBrace : Char := '\x7d'

/-- ASCII whitespace (`\s` of `PLACEHOLDER_RE` and lark `common.WS`
restricted to ASCII, which covers every template in scope). -/
def isPyWS (c : Char) : Bool :=
  c == ' ' || c == '\t' || c == '\n' || c == '\r' ||
    c.toNat == 11 || c.toNat == 12

/-- Drop leading whitespace (`\s*` / `%ignore WS`). -/
def dropWS : List Char → List Char
  | [] => []
  | c :: rest => if isPyWS c then dropWS rest else c :: rest

/-- `[A-Za-z_]` (the leading character of `IDENTIFIER`). -/
def isAlphaUnd (c : Char) : Bool :=
  ('A' ≤ c && c ≤ 'Z') || ('a' ≤ c && c ≤ 'z') || c == '_'

/-- `[A-Za-z0-9_]` (`\w`, the continuation characters of
`IDENTIFIER` and the word-boundary class of `\b`). -/
def isWordChar (c : Char) : Bool := isAlphaUnd c || c.isDigit

/-- Split `s` at the first occurrence of `\x7d\x7d` (the lazy
`(?:(?!\}\}).)*?` of `PLACEHOLDER_RE` followed by its closing
braces): returns the characters before the pair and the suffix after
it, or `none` when no such pair occurs. -/
def splitAtClose : List Char → Option (List Char × List Char)
  | [] => none
  | c :: rest =>
    if c == closeBrace && rest.head? == some closeBrace then
      some ([], rest.tail)
    else
      match splitAtClose rest with
      | none => none
      | some (p, suf) => some (c :: p, suf)

/-- Match `PLACEHOLDER_RE` anchored at the head of `s`: the literal
`\x7b\x7b`, then `\s*`, then `TL` with a word boundary, then the lazy
body up to the first `\x7d\x7d`. Returns the `body` group (which
starts at the `TL`) and the suffix after the closing braces. -/
def matchPlaceholderAt (s : List Char) : Option (List Char × List Char) :=
  match s with
  | c1 :: c2 :: t =>
    if c1 == openBrace && c2 == openBrace then
      match dropWS t with
      | 'T' :: 'L' :: u =>
        if (match u.head? with
            | some c => !isWordChar c
            | none => true) then
          match splitAtClose u with
          | some (p, suf) => some ('T' :: 'L' :: p, suf)
          | none => none
        else none
      | _ => none
    else none
  | _ => none

/-- The first `PLACEHOLDER_RE` match in the text
(`PLACEHOLDER_RE.finditer`, first iterate): scanning start positions
left to right, returns the text before the match, the `body` group
(`span_inner`, which excludes the surrounding braces), and the text
after the match. -/
def findPlaceholder : List Char → Option (List Char × List Char × List Char)
  | [] => none
  | c :: rest =>
    match matchPlaceholderAt (c :: rest) with
    | some (body, after) => some ([], body, after)
    | none =>
      match findPlaceholder rest with
      | none => none
      | some (pre, body, after) => some (c :: pre, body, after)

/-- `DomainIntervalUnresolved` / `DomainSetUnresolved` from
`tasklattice/placeholder/model.py` as the parse transformer builds
them (`lpar`/`rpar` record which bracket characters appeared). -/
inductive DomainU where
  | intervalU (lower upper : Value) (lpar rpar : Char)
  | setU (entries : List Value)
  deriving DecidableEq, Repr

/-- The value a `pair` subtree transforms to: `("type", t)`,
`("domain", d)` or `("desc", s)`. -/
inductive MetaVal where
  | mType (t : String)
  | mDomain (d : DomainU)
  | mDesc (t : String)
  deriving DecidableEq, Repr

/-- `ParamUnresolved` from `tasklattice/placeholder/model.py`. -/
structure ParamUnresolvedL where
  name : String
  default : Value
  py_type : Option String
  domain : Option DomainU
  description : Option String
  deriving DecidableEq, Repr

/-- Maximal run of word characters (lexer maximal munch). -/
def takeWordChars : List Char → List Char × List Char
  | [] => ([], [])
  | c :: rest =>
    if isWordChar c then
      match takeWordChars rest with
      | (w, r) => (c :: w, r)
    else ([], c :: rest)

/-- Lex an `IDENTIFIER` (`/[A-Za-z_][A-Za-z0-9_]*/`) at the head of
`s`. -/
def lexIdentCore : List Char → Option (String × List Char)
  | [] => none
  | c :: rest =>
    if isAlphaUnd c then
      match takeWordChars rest with
      | (w, r) => some (String.mk (c :: w), r)
    else none

/-- Lex an `IDENTIFIER` after ignorable whitespace. -/
def lexIdentWS (s : List Char) : Option (String × List Char) :=
  lexIdentCore (dropWS s)

/-- Expect a one-character token after ignorable whitespace. -/
def expectChar (ch : Char) (s : List Char) : Option (List Char) :=
  match dropWS s with
  | c :: rest => if c == ch then some rest else none
  | [] => none

/-- Maximal run of decimal digits. -/
def takeDigits : List Char → List Char × List Char
  | [] => ([], [])
  | c :: rest =>
    if c.isDigit then
      match takeDigits rest with
      | (d, r) => (c :: d, r)
    else ([], c :: rest)

/-- Decimal digits to a natural number. -/
def digitsToNat (ds : List Char) : Nat :=
  ds.foldl (fun acc c => acc * 10 + (c.toNat - 48)) 0

/-- Apply a decimal exponent (`esign` true for a non-negative
exponent). -/
def applyExp (q : ℚ) (esign : Bool) (k : Nat) : ℚ :=
  if esign then q * (10 : ℚ) ^ k else q / (10 : ℚ) ^ k

/-- Lex the optional exponent part `(?:[eE][+-]?\d+)` of `FLOAT`;
returns the sign, the exponent digits value and the rest, or `none`
when no well-formed exponent follows (maximal munch then leaves the
`e` unconsumed). -/
def tryExp : List Char → Option (Bool × Nat × List Char)
  | [] => none
  | c :: rest =>
    if c == 'e' || c == 'E' then
      match rest with
      | [] => none
      | s :: r1 =>
        if s == '+' then
          match takeDigits r1 with
          | ([], _) => none
          | (ds, r2) => some (true, digitsToNat ds, r2)
        else if s == '-' then
          match takeDigits r1 with
          | ([], _) => none
          | (ds, r2) => some (false, digitsToNat ds, r2)
        else
          match takeDigits (s :: r1) with
          | ([], _) => none
          | (ds, r2) => some (true, digitsToNat ds, r2)
    else none

/-- Finish lexing a number whose integer digits `ip` have been read:
a `.` continues into `FLOAT` (`\d+\.\d*`), an exponent alone also
makes a `FLOAT` (`\d+(?:[eE][+-]?\d+)`), otherwise the token is an
`INT`; the transformer turns `INT` into a Python int and `FLOAT` into
a Python float. -/
def numFromParts (neg : Bool) (ip : List Char) (rest : List Char) :
    Option (Value × List Char) :=
  match rest with
  | '.' :: r1 =>
    match takeDigits r1 with
    | (fp, r2) =>
      match
        (if neg then
          -((digitsToNat ip : ℚ) +
            (digitsToNat fp : ℚ) / (10 : ℚ) ^ fp.length)
        else
          (digitsToNat ip : ℚ) +
            (digitsToNat fp : ℚ) / (10 : ℚ) ^ fp.length) with
      | signed =>
        match tryExp r2 with
        | some (es, k, r3) => some (.vFloat (applyExp signed es k), r3)
        | none => some (.vFloat signed, r2)
  | _ =>
    match tryExp rest with
    | some (es, k, r3) =>
      some (.vFloat (applyExp
        (if neg then -(digitsToNat ip : ℚ) else (digitsToNat ip : ℚ))
        es k), r3)
    | none =>
      some (.vInt
        (if neg then -(digitsToNat ip : Int) else (digitsToNat ip : Int)),
        rest)

/-- Lex an `INT` or `FLOAT` token at the head of `s`
(`/[+-]?\d+/` and the `FLOAT` pattern of the grammar, including the
leading-dot form `\.\d+`). -/
def parseNumberTok (s : List Char) : Option (Value × List Char) :=
  match s with
  | [] => none
  | c0 :: r0 =>
    match (if c0 == '+' then (false, r0)
           else if c0 == '-' then (true, r0)
           else (false, c0 :: r0) : Bool × List Char) with
    | (neg, s1) =>
      match s1 with
      | '.' :: r1 =>
        match takeDigits r1 with
        | ([], _) => none
        | (fp, r2) =>
          match
            (if neg then
              -((digitsToNat fp : ℚ) / (10 : ℚ) ^ fp.length)
            else (digitsToNat fp : ℚ) / (10 : ℚ) ^ fp.length) with
          | signed =>
            match tryExp r2 with
            | some (es, k, r3) =>
              some (.vFloat (applyExp signed es k), r3)
            | none => some (.vFloat signed, r2)
      | _ =>
        match takeDigits s1 with
        | ([], _) => none
        | (ip, rest) => numFromParts neg ip rest

/-- Lex the interior of a `STRING` token with the Python escape rules
`literal_eval` applies (unknown escapes keep the backslash), up to
the closing quote `q`. -/
def lexStringBody (q : Char) : Nat → List Char → Option (List Char × List Char)
  | _, [] => none
  | 0, _ => none
  | fuel + 1, c :: rest =>
    if c == q then some ([], rest)
    else if c == '\\' then
      match rest with
      | [] => none
      | e :: rest2 =>
        match lexStringBody q fuel rest2 with
        | none => none
        | some (bs, r) =>
          some ((if e == 'n' then ['\n']
                 else if e == 't' then ['\t']
                 else if e == 'r' then ['\r']
                 else if e == '\\' then ['\\']
                 else if e == '\'' then ['\'']
                 else if e == '"' then ['"']
                 else if e == '0' then [Char.ofNat 0]
                 else ['\\', e]) ++ bs, r)
    else
      match lexStringBody q fuel rest with
      | none => none
      | some (bs, r) => some (c :: bs, r)

/-- Lex a `STRING` token (`DQUOTE_STRING | SQUOTE_STRING`) after
ignorable whitespace; the transformer turns it into the Python
string. -/
def parseStringTok (s : List Char) : Option (String × List Char) :=
  match dropWS s with
  | [] => none
  | c :: rest =>
    if c == '"' || c == '\'' then
      match lexStringBody c rest.length rest with
      | some (bs, r) => some (String.mk bs, r)
      | none => none
    else none

/-- Parse a `number` (`INT | FLOAT`) after ignorable whitespace. -/
def parseNumberV (s : List Char) : Option (Value × List Char) :=
  match dropWS s with
  | [] => none
  | c :: rest =>
    if c == '+' || c == '-' || c == '.' || c.isDigit then
      parseNumberTok (c :: rest)
    else none

/-- Parse a `literal` (`STRING | number | boolean`); booleans are
recognised case-insensitively exactly where the grammar expects them,
mirroring the contextual lexer. -/
def parseLiteral (s : List Char) : Option (Value × List Char) :=
  match dropWS s with
  | [] => none
  | c :: rest =>
    if c == '"' || c == '\'' then
      match parseStringTok (c :: rest) with
      | some (str, r) => some (.vStr str, r)
      | none => none
    else if c == '+' || c == '-' || c == '.' || c.isDigit then
      parseNumberTok (c :: rest)
    else
      match lexIdentCore (c :: rest) with
      | some (idv, r) =>
        if idv.toLower == "true" then some (.vBool true, r)
        else if idv.toLower == "false" then some (.vBool false, r)
        else none
      | none => none

/-- Parse a `set_elem` (`number | STRING`). -/
def parseSetElem (s : List Char) : Option (Value × List Char) :=
  match dropWS s with
  | [] => none
  | c :: rest =>
    if c == '"' || c == '\'' then
      match parseStringTok (c :: rest) with
      | some (str, r) => some (.vStr str, r)
      | none => none
    else if c == '+' || c == '-' || c == '.' || c.isDigit then
      parseNumberTok (c :: rest)
    else none

/-- Parse the `("," set_elem)*` tail of a `set`. -/
def parseSetRest : Nat → List Char → Option (List Value × List Char)
  | 0, s =>
    match expectChar ',' s with
    | none => some ([], s)
    | some _ => none
  | fuel + 1, s =>
    match expectChar ',' s with
    | none => some ([], s)
    | some s1 =>
      match parseSetElem s1 with
      | none => none
      | some (v, s2) =>
        match parseSetRest fuel s2 with
        | none => none
        | some (vs, s3) => some (v :: vs, s3)

/-- Parse the interior of a `set` after its opening brace:
`[set_elem ("," set_elem)*] "\x7d"`. -/
def parseSetBody (s : List Char) : Option (DomainU × List Char) :=
  match expectChar closeBrace s with
  | some s1 => some (.setU [], s1)
  | none =>
    match parseSetElem s with
    | none => none
    | some (v, s1) =>
      match parseSetRest s1.length s1 with
      | none => none
      | some (vs, s2) =>
        match expectChar closeBrace s2 with
        | none => none
        | some s3 => some (.setU (v :: vs), s3)

/-- Parse a domain (`interval | set`): `interval` is
`LPAR number "," number RPAR` with `LPAR: "(" | "["` and
`RPAR: ")" | "]"`; the transformer records the bracket characters in
`DomainIntervalUnresolved`. -/
def parseDomain (s : List Char) : Option (DomainU × List Char) :=
  match dropWS s with
  | [] => none
  | c :: rest =>
    if c == '(' || c == '[' then
      match parseNumberV rest with
      | none => none
      | some (lo, s1) =>
        match expectChar ',' s1 with
        | none => none
        | some s2 =>
          match parseNumberV s2 with
          | none => none
          | some (hi, s3) =>
            match dropWS s3 with
            | r :: s4 =>
              if r == ')' || r == ']' then
                some (.intervalU lo hi c r, s4)
              else none
            | [] => none
    else if c == openBrace then
      parseSetBody rest
    else none

/-- Parse a `pair` (`domain_pair | type_pair | description_pair`);
the keyword literals `domain`/`type`/`desc` are the only
alternatives, and the transformer labels the result accordingly. -/
def parsePair (s : List Char) : Option ((String × MetaVal) × List Char) :=
  match lexIdentWS s with
  | none => none
  | some (key, s1) =>
    match expectChar ':' s1 with
    | none => none
    | some s2 =>
      if key == "domain" then
        match parseDomain s2 with
        | some (d, s3) => some (("domain", .mDomain d), s3)
        | none => none
      else if key == "type" then
        match lexIdentWS s2 with
        | some (t, s3) => some (("type", .mType t), s3)
        | none => none
      else if key == "desc" then
        match parseStringTok s2 with
        | some (t, s3) => some (("desc", .mDesc t), s3)
        | none => none
      else none

/-- Parse the `("," pair)*` tail of the `param` rule. -/
def parsePairs : Nat → List Char → Option (List (String × MetaVal) × List Char)
  | 0, s =>
    match expectChar ',' s with
    | none => some ([], s)
    | some _ => none
  | fuel + 1, s =>
    match expectChar ',' s with
    | none => some ([], s)
    | some s1 =>
      match parsePair s1 with
      | none => none
      | some (pr, s2) =>
        match parsePairs fuel s2 with
        | none => none
        | some (rest, s3) => some (pr :: rest, s3)

/-- Lookup in the transformed meta pairs. -/
def lookupMeta : List (String × MetaVal) → String → Option MetaVal
  | [], _ => none
  | (k, v) :: rest, key => if k == key then some v else lookupMeta rest key

/-- Whether two meta pairs share a label (the transformer's
`duplicate key detected` check). -/
def hasDupKeys : List (String × MetaVal) → Bool
  | [] => false
  | (k, _) :: rest => (rest.map Prod.fst).contains k || hasDupKeys rest

/-- The assembly the transformer's `start` method performs on the
children `(name, default, *meta)` of a `param` subtree
(`tasklattice/placeholder/parse.py:25-42`): reject duplicate labels,
then build `ParamUnresolved` from the `type`/`domain`/`desc`
entries. (Labels are always in the allowed set because only the three
`pair` alternatives produce them.) -/
def buildParam (name : String) (default : Value)
    (pairs : List (String × MetaVal)) : Except String ParamUnresolvedL :=
  if hasDupKeys pairs then .error "duplicate key detected"
  else
    .ok ⟨name, default,
      (match lookupMeta pairs "type" with
       | some (.mType t) => some t
       | _ => none),
      (match lookupMeta pairs "domain" with
       | some (.mDomain d) => some d
       | _ => none),
      (match lookupMeta pairs "desc" with
       | some (.mDesc t) => some t
       | _ => none)⟩

/-- Parse the `param` rule
(`IDENTIFIER "=" literal ("," pair)*`). -/
def parseParamCore (s : List Char) :
    Option (String × Value × List (String × MetaVal) × List Char) :=
  match lexIdentWS s with
  | none => none
  | some (name, s1) =>
    match expectChar '=' s1 with
    | none => none
    | some s2 =>
      match parseLiteral s2 with
      | none => none
      | some (default, s3) =>
        match parsePairs s3.length s3 with
        | none => none
        | some (pairs, s4) => some (name, default, pairs, s4)

/-- Parse a full input against the `param` rule alone and transform
it (what the pipeline would need to do with `ph.text`, whose `body`
group contains exactly a `param`). -/
def parseParamBody (s : List Char) : Except String ParamUnresolvedL :=
  match parseParamCore s with
  | none => .error "UnexpectedToken in param"
  | some (name, default, pairs, rest) =>
    if (dropWS rest).isEmpty then buildParam name default pairs
    else .error "UnexpectedToken: expected end of input"

/-- Expect the `OPEN_PH` terminal (`\x7b\x7b`) after ignorable
whitespace. -/
def expectOpenPH (s : List Char) : Option (List Char) :=
  match dropWS s with
  | c1 :: c2 :: rest =>
    if c1 == openBrace && c2 == openBrace then some rest else none
  | _ => none

/-- Expect the `TL_KW` terminal (`TL`) after ignorable whitespace. -/
def expectTLKW (s : List Char) : Option (List Char) :=
  match dropWS s with
  | 'T' :: 'L' :: rest =>
    if (match rest.head? with
        | some c => !isWordChar c
        | none => true) then some rest
    else none
  | _ => none

/-- Expect the `CLOSE_PH` terminal (`\x7d\x7d`) after ignorable
whitespace. -/
def expectClosePH (s : List Char) : Option (List Char) :=
  match dropWS s with
  | c1 :: c2 :: rest =>
    if c1 == closeBrace && c2 == closeBrace then some rest else none
  | _ => none

/-- `parse_param` from `tasklattice/placeholder/parse.py`: run the
LALR parser with the grammar's `start` rule
(`start: OPEN_PH TL_KW param CLOSE_PH`) over `ph.text` — which is
`span_inner`, the `body` group of `PLACEHOLDER_RE`, i.e. the text
starting at `TL` WITHOUT the surrounding `\x7b\x7b`…`\x7d\x7d`. The
first expected terminal is the literal `\x7b\x7b`, so this is where
parsing of every scanned body stops. (The transformer is not
modelled past a successful parse, which no scanned body reaches.) -/
def parse_param (body : List Char) : Except String ParamUnresolvedL :=
  match expectOpenPH body with
  | none => .error "UnexpectedToken: expected OPEN_PH"
  | some s1 =>
    match expectTLKW s1 with
    | none => .error "UnexpectedToken: expected TL_KW"
    | some s2 =>
      match parseParamCore s2 with
      | none => .error "UnexpectedToken in param"
      | some (name, default, pairs, s3) =>
        match expectClosePH s3 with
        | none => .error "UnexpectedToken: expected CLOSE_PH"
        | some s4 =>
          if (dropWS s4).isEmpty then buildParam name default pairs
          else .error "UnexpectedToken: expected end of input"

/-- The C1 template text:
`\x7b"n": \x7b\x7bTL n = 1, type: int, domain: [0, 10]\x7d\x7d\x7d`. -/
def tmplC1 : List Char :=
  "\x7b\"n\": \x7b\x7bTL n = 1, type: int, domain: [0, 10]\x7d\x7d\x7d".data

/-- The `span_inner` body `PLACEHOLDER_RE` extracts from `tmplC1`. -/
def bodyC1 : List Char := "TL n = 1, type: int, domain: [0, 10]".data

/-- The text before the C1 placeholder. -/
def preC1 : List Char := "\x7b\"n\": ".data

/-- The text after the C1 placeholder. -/
def postC1 : List Char := "\x7d".data

-- ———————————————————————————————————————————————————————————————————
-- Theorems
-- ———————————————————————————————————————————————————————————————————

/-- **C2.** Lattice enumeration order and count for the fixed pipeline
`Lattice().set_constants({a:1}).add_product(b,[10,20])`
`.add_zip({c:[1,2],d:[3,4]}).filter(m => m[b] != 20 or m[c] != 1)`:
iterating yields exactly three substitution maps, in this order:
`{a:1,b:10,c:1,d:3}`, `{a:1,b:10,c:2,d:4}`, `{a:1,b:20,c:2,d:4}`. -/
theorem C2_lattice_enumeration :
    latticeIter latC2.ops =
      .ok [[("a", .vInt 1), ("b", .vInt 10), ("c", .vInt 1), ("d", .vInt 3)],
           [("a", .vInt 1), ("b", .vInt 10), ("c", .vInt 2), ("d", .vInt 4)],
           [("a", .vInt 1), ("b", .vInt 20), ("c", .vInt 2), ("d", .vInt 4)]] := by
  rfl

theorem pyEq_refl (v : Value) : pyEq v v = true := by
  cases v <;> simp [pyEq, Value.toRat?]

theorem plookup_append (a b : PyMap) (k : ParamName) :
    plookup (a ++ b) k =
      match plookup a k with
      | some w => some w
      | none => plookup b k := by
  induction a with
  | nil => simp [plookup]
  | cons hd tl ih =>
    by_cases h : hd.1 == k <;> simp [plookup, h, ih]

theorem plookup_append_of_some {a : PyMap} {k : ParamName} {w : Value}
    (h : plookup a k = some w) (b : PyMap) :
    plookup (a ++ b) k = some w := by
  rw [plookup_append, h]

theorem plookup_append_single_self {a : PyMap} {k : ParamName}
    (h : plookup a k = none) (v : Value) :
    plookup (a ++ [(k, v)]) k = some v := by
  rw [plookup_append, h]; simp [plookup]

theorem plookup_append_single_ne {a : PyMap} {k k' : ParamName}
    (h : k' ≠ k) (v : Value) :
    plookup (a ++ [(k', v)]) k = plookup a k := by
  rw [plookup_append]
  cases hx : plookup a k <;> simp [plookup, h]

theorem plookup_pupdate_self {a : PyMap} {k : ParamName} {w : Value}
    (h : plookup a k = some w) (v : Value) :
    plookup (pupdate a k v) k = some v := by
  induction a with
  | nil => simp [plookup] at h
  | cons hd tl ih =>
    by_cases hk : hd.1 == k
    · simp [pupdate, hk, plookup]
    · simp [plookup, hk] at h
      simp [pupdate, hk, plookup, ih h]

theorem plookup_pupdate_ne (a : PyMap) {k k' : ParamName}
    (h : k' ≠ k) (v : Value) :
    plookup (pupdate a k' v) k = plookup a k := by
  induction a with
  | nil => simp [pupdate]
  | cons hd tl ih =>
    obtain ⟨k0, v0⟩ := hd
    by_cases hk : k0 = k'
    · subst hk
      simp [pupdate, plookup, h]
    · by_cases hk2 : k0 = k <;>
        simp [pupdate, plookup, hk, hk2, Ne.symm h, ih]

theorem except_foldlM_nil {ε β α : Type} (f : β → α → Except ε β)
    (init : β) : ([] : List α).foldlM f init = .ok init := rfl

theorem except_foldlM_cons {ε β α : Type} (f : β → α → Except ε β)
    (init : β) (h : α) (t : List α) :
    (h :: t).foldlM f init = (f init h).bind (fun b => t.foldlM f b) := by
  rw [List.foldlM_cons]; rfl

theorem except_foldlM_error_of_mem {ε β α : Type}
    (f : β → α → Except ε β) {l : List α} (init : β) {v : α}
    (hv : v ∈ l) (hf : ∀ res : β, ∃ e, f res v = .error e) :
    ∃ e, l.foldlM f init = .error e := by
  induction l generalizing init with
  | nil => cases hv
  | cons h t ih =>
    rw [except_foldlM_cons]
    cases heq : f init h with
    | error e => exact ⟨e, rfl⟩
    | ok b =>
      rcases List.mem_cons.mp hv with rfl | hvt
      · obtain ⟨e, he⟩ := hf init
        rw [heq] at he; cases he
      · simpa using ih b hvt

theorem except_foldlM_ok_of_forall {ε β α : Type}
    (f : β → α → Except ε β) {l : List α} (init : β)
    (hf : ∀ (res : β) (v : α), v ∈ l → ∃ r, f res v = .ok r) :
    ∃ out, l.foldlM f init = .ok out := by
  induction l generalizing init with
  | nil => exact ⟨init, rfl⟩
  | cons h t ih =>
    obtain ⟨r, hr⟩ := hf init h (List.mem_cons_self _ _)
    rw [except_foldlM_cons, hr]
    exact ih r (fun res v hv => hf res v (List.mem_cons_of_mem _ hv))

theorem mergeOne_error_of_conflict {base : PyMap} {k : ParamName}
    {v w : Value} (hw : plookup base k = some w)
    (hne : pyEq w v = false) :
    ∃ e, mergeOne .ERROR base (k, v) = .error e :=
  ⟨"conflicting assignments for " ++ k, by simp [mergeOne, hw, hne]⟩

theorem mergeOne_error_ok_lookup {base b' : PyMap}
    {kv : ParamName × Value} {k : ParamName} {w : Value}
    (hok : mergeOne .ERROR base kv = .ok b')
    (hw : plookup base k = some w) : plookup b' k = some w := by
  unfold mergeOne at hok
  cases hx : plookup base kv.1 with
  | some w0 =>
    rw [hx] at hok
    by_cases he : pyEq w0 kv.2 = true
    · simp [he] at hok; rw [← hok]; exact hw
    · simp [eq_false_of_ne_true he] at hok
  | none =>
    rw [hx] at hok
    simp at hok
    rw [← hok]
    exact plookup_append_of_some hw _

theorem merge_error_of_conflict {base extra : PyMap} {k : ParamName}
    {v w : Value} (hmem : (k, v) ∈ extra)
    (hw : plookup base k = some w) (hne : pyEq w v = false) :
    ∃ e, merge .ERROR base extra = .error e := by
  induction extra generalizing base with
  | nil => cases hmem
  | cons kv t ih =>
    unfold merge
    rw [except_foldlM_cons]
    cases heq : mergeOne .ERROR base kv with
    | error e => exact ⟨e, rfl⟩
    | ok b' =>
      rcases List.mem_cons.mp hmem with rfl | hvt
      · obtain ⟨e, he⟩ := mergeOne_error_of_conflict hw hne
        rw [heq] at he; cases he
      · have hw' := mergeOne_error_ok_lookup heq hw
        simpa [merge] using ih hvt hw'

theorem mergeOne_firstWins_ok (base : PyMap) (kv : ParamName × Value) :
    ∃ b', mergeOne .FIRST_WINS base kv = .ok b' ∧
      ∀ k w, plookup base k = some w → plookup b' k = some w := by
  unfold mergeOne
  cases hx : plookup base kv.1 with
  | some w0 =>
    by_cases he : pyEq w0 kv.2 = true
    · exact ⟨base, by simp [he], fun k w h => h⟩
    · exact ⟨base, by simp [eq_false_of_ne_true he], fun k w h => h⟩
  | none =>
    exact ⟨base ++ [(kv.1, kv.2)], by simp,
      fun k w h => plookup_append_of_some h _⟩

theorem merge_firstWins_ok (base extra : PyMap) :
    ∃ m, merge .FIRST_WINS base extra = .ok m ∧
      ∀ k w, plookup base k = some w → plookup m k = some w := by
  induction extra generalizing base with
  | nil => exact ⟨base, rfl, fun k w h => h⟩
  | cons kv t ih =>
    obtain ⟨b', hb', hpres⟩ := mergeOne_firstWins_ok base kv
    obtain ⟨m, hm, hpres2⟩ := ih b'
    refine ⟨m, ?_, fun k w h => hpres2 k w (hpres k w h)⟩
    unfold merge
    rw [except_foldlM_cons, hb']
    exact hm

theorem mergeOne_ok_preserves_ne {pol : ConflictPolicy} {base b' : PyMap}
    {kv : ParamName × Value} {k : ParamName}
    (hok : mergeOne pol base kv = .ok b') (hne : kv.1 ≠ k) :
    plookup b' k = plookup base k := by
  unfold mergeOne at hok
  cases hx : plookup base kv.1 with
  | some w0 =>
    rw [hx] at hok
    by_cases he : pyEq w0 kv.2 = true
    · simp [he] at hok; rw [← hok]
    · simp [eq_false_of_ne_true he] at hok
      cases pol with
      | ERROR => cases hok
      | FIRST_WINS => simp at hok; rw [← hok]
      | LAST_WINS =>
        simp at hok; rw [← hok]
        exact plookup_pupdate_ne base hne kv.2
  | none =>
    rw [hx] at hok
    simp at hok
    rw [← hok]
    exact plookup_append_single_ne hne kv.2

theorem merge_ok_preserves_notin {pol : ConflictPolicy}
    {base m : PyMap} {t : PyMap} {k : ParamName}
    (hok : merge pol base t = .ok m) (hnot : k ∉ pkeys t) :
    plookup m k = plookup base k := by
  induction t generalizing base with
  | nil =>
    unfold merge at hok
    rw [except_foldlM_nil] at hok
    cases hok; rfl
  | cons kv r ih =>
    unfold merge at hok
    rw [except_foldlM_cons] at hok
    cases heq : mergeOne pol base kv with
    | error e => rw [heq] at hok; cases hok
    | ok b' =>
      rw [heq] at hok
      have hk1 : kv.1 ≠ k := by
        intro hc; exact hnot (by simp [pkeys, hc.symm])
      have hnot' : k ∉ pkeys r := by
        intro hc; exact hnot (by simp [pkeys] at hc ⊢; exact Or.inr hc)
      have := @ih b' hok hnot'
      rw [this, mergeOne_ok_preserves_ne heq hk1]

theorem mergeOne_lastWins_ok (base : PyMap) (kv : ParamName × Value) :
    ∃ b', mergeOne .LAST_WINS base kv = .ok b' ∧
      ∃ w, plookup b' kv.1 = some w ∧ pyEq w kv.2 = true := by
  unfold mergeOne
  cases hx : plookup base kv.1 with
  | some w0 =>
    by_cases he : pyEq w0 kv.2 = true
    · exact ⟨base, by simp [he], w0, hx, he⟩
    · refine ⟨pupdate base kv.1 kv.2, by simp [eq_false_of_ne_true he],
        kv.2, plookup_pupdate_self hx kv.2, pyEq_refl kv.2⟩
  | none =>
    exact ⟨base ++ [(kv.1, kv.2)], by simp,
      kv.2, plookup_append_single_self hx kv.2, pyEq_refl kv.2⟩

theorem merge_lastWins_ok (base extra : PyMap)
    (hnd : (pkeys extra).Nodup) :
    ∃ m, merge .LAST_WINS base extra = .ok m ∧
      ∀ k v, plookup extra k = some v →
        ∃ w, plookup m k = some w ∧ pyEq w v = true := by
  induction extra generalizing base with
  | nil => exact ⟨base, rfl, by intro k v h; simp [plookup] at h⟩
  | cons kv t ih =>
    obtain ⟨k0, v0⟩ := kv
    simp only [pkeys, List.map_cons, List.nodup_cons] at hnd
    obtain ⟨hk0, hndt⟩ := hnd
    obtain ⟨b', hb', w0, hw0, hpy0⟩ := mergeOne_lastWins_ok base (k0, v0)
    obtain ⟨m, hm, hrest⟩ := ih b' hndt
    refine ⟨m, ?_, ?_⟩
    · unfold merge
      rw [except_foldlM_cons, hb']
      exact hm
    · intro k v hkv
      by_cases hk : k0 = k
      · subst hk
        simp [plookup] at hkv
        subst hkv
        have hpm : plookup m k0 = plookup b' k0 :=
          merge_ok_preserves_notin hm (by simpa [pkeys] using hk0)
        exact ⟨w0, by rw [hpm]; exact hw0, hpy0⟩
      · have : plookup ((k0, v0) :: t) k = plookup t k := by
          simp [plookup, hk]
        rw [this] at hkv
        exact hrest k v hkv

theorem dfs_cons (pol : ConflictPolicy) (ok : PyMap → Bool)
    (k : ParamName) (vs : List Value)
    (rest : List (ParamName × List Value)) (acc : PyMap) :
    dfs pol ok ((k, vs) :: rest) acc =
      vs.foldlM
        (fun res v =>
          match plookup acc k with
          | some old =>
            if pyEq old v then
              if ok acc then
                (dfs pol ok rest acc).map (fun ms => res ++ ms)
              else .ok res
            else
              match pol with
              | .ERROR => .error ("conflicting assignments for " ++ k)
              | .FIRST_WINS => .ok res
              | .LAST_WINS =>
                let acc' := pupdate acc k v
                if ok acc' then
                  (dfs pol ok rest acc').map (fun ms => res ++ ms)
                else .ok res
          | none =>
            let acc' := acc ++ [(k, v)]
            if ok acc' then
              (dfs pol ok rest acc').map (fun ms => res ++ ms)
            else .ok res)
        [] := by
  rw [dfs]

theorem except_foldlM_all {ε α β : Type}
    (f : List β → α → Except ε (List β)) (P : β → Prop) (l : List α)
    (hstep : ∀ res v out, v ∈ l → (∀ m ∈ res, P m) → f res v = .ok out →
      ∀ m ∈ out, P m) :
    ∀ res₀ out, (∀ m ∈ res₀, P m) → l.foldlM f res₀ = .ok out →
      ∀ m ∈ out, P m := by
  induction l with
  | nil =>
    intro res₀ out h0 hfold
    rw [except_foldlM_nil] at hfold
    cases hfold; exact h0
  | cons h t ih =>
    intro res₀ out h0 hfold
    rw [except_foldlM_cons] at hfold
    cases heq : f res₀ h with
    | error e => rw [heq] at hfold; cases hfold
    | ok r' =>
      rw [heq] at hfold
      have hr' := hstep res₀ h r' (List.mem_cons_self _ _) h0 heq
      exact ih (fun res v out hv => hstep res v out (List.mem_cons_of_mem _ hv))
        r' out hr' hfold

theorem dfs_error_of_head_conflict {okf : PyMap → Bool} {k : ParamName}
    {vs : List Value} {rest : List (ParamName × List Value)}
    {base : PyMap} {w v : Value} (hw : plookup base k = some w)
    (hv : v ∈ vs) (hne : pyEq w v = false) :
    ∃ e, dfs .ERROR okf ((k, vs) :: rest) base = .error e := by
  rw [dfs_cons]
  apply except_foldlM_error_of_mem _ _ hv
  intro res
  refine ⟨"conflicting assignments for " ++ k, ?_⟩
  simp only [hw, hne]
  simp

theorem dfs_ok_of_ne_error {pol : ConflictPolicy} (hpol : pol ≠ .ERROR)
    (okf : PyMap → Bool) :
    ∀ (space : List (ParamName × List Value)) (acc : PyMap),
      ∃ out, dfs pol okf space acc = .ok out := by
  intro space
  induction space with
  | nil => exact fun acc => ⟨[acc], by rw [dfs]⟩
  | cons dim rest ih =>
    intro acc
    obtain ⟨k, vs⟩ := dim
    rw [dfs_cons]
    apply except_foldlM_ok_of_forall
    intro res v _
    cases hx : plookup acc k with
    | some old =>
      by_cases he : pyEq old v = true
      · by_cases hk : okf acc = true
        · obtain ⟨out, hout⟩ := ih acc
          exact ⟨res ++ out, by simp [hx, he, hk, hout, Except.map]⟩
        · exact ⟨res, by simp [hx, he, eq_false_of_ne_true hk]⟩
      · cases pol with
        | ERROR => exact absurd rfl hpol
        | FIRST_WINS => exact ⟨res, by simp [hx, eq_false_of_ne_true he]⟩
        | LAST_WINS =>
          by_cases hk : okf (pupdate acc k v) = true
          · obtain ⟨out, hout⟩ := ih (pupdate acc k v)
            exact ⟨res ++ out,
              by simp [hx, eq_false_of_ne_true he, hk, hout, Except.map]⟩
          · exact ⟨res,
              by simp [hx, eq_false_of_ne_true he, eq_false_of_ne_true hk]⟩
    | none =>
      by_cases hk : okf (acc ++ [(k, v)]) = true
      · obtain ⟨out, hout⟩ := ih (acc ++ [(k, v)])
        exact ⟨res ++ out, by simp [hx, hk, hout, Except.map]⟩
      · exact ⟨res, by simp [hx, eq_false_of_ne_true hk]⟩

theorem except_map_ok {ε α β : Type} {e : Except ε α} {g : α → β}
    {b : β} (h : e.map g = .ok b) : ∃ a, e = .ok a ∧ b = g a := by
  cases e with
  | error e' => simp [Except.map] at h
  | ok a => simp [Except.map] at h; exact ⟨a, rfl, h.symm⟩

theorem dfs_preserves_notin {pol : ConflictPolicy} {okf : PyMap → Bool} :
    ∀ (space : List (ParamName × List Value)) (acc : PyMap)
      (out : List PyMap) (k : ParamName),
      dfs pol okf space acc = .ok out → k ∉ spaceKeys space →
      ∀ m ∈ out, plookup m k = plookup acc k := by
  intro space
  induction space with
  | nil =>
    intro acc out k hdfs _ m hm
    rw [dfs] at hdfs
    cases hdfs
    simp at hm
    rw [hm]
  | cons dim rest ih =>
    intro acc out k hdfs hk m hm
    obtain ⟨k0, vs⟩ := dim
    have hkk0 : k0 ≠ k := by
      intro hc; exact hk (by simp [spaceKeys, hc])
    have hkrest : k ∉ spaceKeys rest := by
      intro hc; exact hk (by simp [spaceKeys] at hc ⊢; exact Or.inr hc)
    rw [dfs_cons] at hdfs
    refine except_foldlM_all _ (fun m => plookup m k = plookup acc k) vs
      ?_ [] out (by simp) hdfs m hm
    intro res v out' _ hres hstep m' hm'
    revert hstep
    cases hx : plookup acc k0 with
    | some old =>
      by_cases he : pyEq old v = true
      · by_cases hko : okf acc = true
        · simp only [hx, he, hko, if_true]
          intro hstep
          obtain ⟨ms, hms, rfl⟩ := except_map_ok hstep
          rcases List.mem_append.mp hm' with h1 | h2
          · exact hres m' h1
          · exact ih acc ms k hms hkrest m' h2
        · simp only [hx, he, eq_false_of_ne_true hko, if_true, if_false]
          intro hstep; cases hstep; exact hres m' hm'
      · cases pol with
        | ERROR => simp only [hx, eq_false_of_ne_true he, if_false]; intro h; cases h
        | FIRST_WINS =>
          simp only [hx, eq_false_of_ne_true he, if_false]
          intro hstep; cases hstep; exact hres m' hm'
        | LAST_WINS =>
          simp only [hx, eq_false_of_ne_true he, if_false]
          by_cases hko : okf (pupdate acc k0 v) = true
          · simp only [hko, if_true]
            intro hstep
            obtain ⟨ms, hms, rfl⟩ := except_map_ok hstep
            rcases List.mem_append.mp hm' with h1 | h2
            · exact hres m' h1
            · rw [ih (pupdate acc k0 v) ms k hms hkrest m' h2]
              exact plookup_pupdate_ne acc hkk0 v
          · simp only [eq_false_of_ne_true hko, if_false]
            intro hstep; cases hstep; exact hres m' hm'
    | none =>
      by_cases hko : okf (acc ++ [(k0, v)]) = true
      · simp only [hx, hko, if_true]
        intro hstep
        obtain ⟨ms, hms, rfl⟩ := except_map_ok hstep
        rcases List.mem_append.mp hm' with h1 | h2
        · exact hres m' h1
        · rw [ih (acc ++ [(k0, v)]) ms k hms hkrest m' h2]
          exact plookup_append_single_ne hkk0 v
      · simp only [hx, eq_false_of_ne_true hko, if_false]
        intro hstep; cases hstep; exact hres m' hm'

theorem dfs_firstWins_preserves {okf : PyMap → Bool} :
    ∀ (space : List (ParamName × List Value)) (acc : PyMap)
      (out : List PyMap),
      dfs .FIRST_WINS okf space acc = .ok out →
      ∀ k w, plookup acc k = some w → ∀ m ∈ out, plookup m k = some w := by
  intro space
  induction space with
  | nil =>
    intro acc out hdfs k w hw m hm
    rw [dfs] at hdfs
    cases hdfs
    simp at hm
    rw [hm]; exact hw
  | cons dim rest ih =>
    intro acc out hdfs k w hw m hm
    obtain ⟨k0, vs⟩ := dim
    rw [dfs_cons] at hdfs
    refine except_foldlM_all _ (fun m => plookup m k = some w) vs
      ?_ [] out (by simp) hdfs m hm
    intro res v out' _ hres hstep m' hm'
    revert hstep
    cases hx : plookup acc k0 with
    | some old =>
      by_cases he : pyEq old v = true
      · by_cases hko : okf acc = true
        · simp only [hx, he, hko, if_true]
          intro hstep
          obtain ⟨ms, hms, rfl⟩ := except_map_ok hstep
          rcases List.mem_append.mp hm' with h1 | h2
          · exact hres m' h1
          · exact ih acc ms hms k w hw m' h2
        · simp only [hx, he, eq_false_of_ne_true hko, if_true, if_false]
          intro hstep; cases hstep; exact hres m' hm'
      · simp only [hx, eq_false_of_ne_true he, if_false]
        intro hstep; cases hstep; exact hres m' hm'
    | none =>
      by_cases hko : okf (acc ++ [(k0, v)]) = true
      · simp only [hx, hko, if_true]
        intro hstep
        obtain ⟨ms, hms, rfl⟩ := except_map_ok hstep
        rcases List.mem_append.mp hm' with h1 | h2
        · exact hres m' h1
        · exact ih (acc ++ [(k0, v)]) ms hms k w
            (plookup_append_of_some hw _) m' h2
      · simp only [hx, eq_false_of_ne_true hko, if_false]
        intro hstep; cases hstep; exact hres m' hm'

theorem dfs_lastWins_latest {okf : PyMap → Bool} :
    ∀ (space : List (ParamName × List Value)) (acc : PyMap)
      (out : List PyMap),
      (spaceKeys space).Nodup →
      dfs .LAST_WINS okf space acc = .ok out →
      ∀ k vs, (k, vs) ∈ space → ∀ m ∈ out,
        ∃ v ∈ vs, ∃ w, plookup m k = some w ∧ pyEq w v = true := by
  intro space
  induction space with
  | nil =>
    intro acc out _ _ k vs hmem
    cases hmem
  | cons dim rest ih =>
    intro acc out hnd hdfs k vs hmem m hm
    obtain ⟨k0, vs0⟩ := dim
    simp only [spaceKeys, List.map_cons, List.nodup_cons] at hnd
    obtain ⟨hk0, hndrest⟩ := hnd
    rw [dfs_cons] at hdfs
    rcases List.mem_cons.mp hmem with heq | hrest
    · -- the head dimension: its latest assigned value survives
      cases heq
      refine except_foldlM_all _
        (fun m => ∃ v ∈ vs, ∃ w, plookup m k = some w ∧ pyEq w v = true) vs
        ?_ [] out (by simp) hdfs m hm
      intro res v out' hv hres hstep m' hm'
      revert hstep
      cases hx : plookup acc k with
      | some old =>
        by_cases he : pyEq old v = true
        · by_cases hko : okf acc = true
          · simp only [hx, he, hko, if_true]
            intro hstep
            obtain ⟨ms, hms, rfl⟩ := except_map_ok hstep
            rcases List.mem_append.mp hm' with h1 | h2
            · exact hres m' h1
            · have := dfs_preserves_notin rest acc ms k hms
                (by simpa [spaceKeys] using hk0) m' h2
              exact ⟨v, hv, old, this.trans hx, he⟩
          · simp only [hx, he, eq_false_of_ne_true hko, if_true, if_false]
            intro hstep; cases hstep; exact hres m' hm'
        · simp only [hx, eq_false_of_ne_true he, if_false]
          by_cases hko : okf (pupdate acc k v) = true
          · simp only [hko, if_true]
            intro hstep
            obtain ⟨ms, hms, rfl⟩ := except_map_ok hstep
            rcases List.mem_append.mp hm' with h1 | h2
            · exact hres m' h1
            · have := dfs_preserves_notin rest (pupdate acc k v) ms k hms
                (by simpa [spaceKeys] using hk0) m' h2
              exact ⟨v, hv, v, this.trans (plookup_pupdate_self hx v),
                pyEq_refl v⟩
          · simp only [eq_false_of_ne_true hko, if_false]
            intro hstep; cases hstep; exact hres m' hm'
      | none =>
        by_cases hko : okf (acc ++ [(k, v)]) = true
        · simp only [hx, hko, if_true]
          intro hstep
          obtain ⟨ms, hms, rfl⟩ := except_map_ok hstep
          rcases List.mem_append.mp hm' with h1 | h2
          · exact hres m' h1
          · have := dfs_preserves_notin rest (acc ++ [(k, v)]) ms k hms
              (by simpa [spaceKeys] using hk0) m' h2
            exact ⟨v, hv, v, this.trans (plookup_append_single_self hx v),
              pyEq_refl v⟩
        · simp only [hx, eq_false_of_ne_true hko, if_false]
          intro hstep; cases hstep; exact hres m' hm'
    · -- a later dimension: the inner recursion settles it
      refine except_foldlM_all _
        (fun m => ∃ v ∈ vs, ∃ w, plookup m k = some w ∧ pyEq w v = true) vs0
        ?_ [] out (by simp) hdfs m hm
      intro res v out' _ hres hstep m' hm'
      revert hstep
      cases hx : plookup acc k0 with
      | some old =>
        by_cases he : pyEq old v = true
        · by_cases hko : okf acc = true
          · simp only [hx, he, hko, if_true]
            intro hstep
            obtain ⟨ms, hms, rfl⟩ := except_map_ok hstep
            rcases List.mem_append.mp hm' with h1 | h2
            · exact hres m' h1
            · exact ih acc ms hndrest hms k vs hrest m' h2
          · simp only [hx, he, eq_false_of_ne_true hko, if_true, if_false]
            intro hstep; cases hstep; exact hres m' hm'
        · simp only [hx, eq_false_of_ne_true he, if_false]
          by_cases hko : okf (pupdate acc k0 v) = true
          · simp only [hko, if_true]
            intro hstep
            obtain ⟨ms, hms, rfl⟩ := except_map_ok hstep
            rcases List.mem_append.mp hm' with h1 | h2
            · exact hres m' h1
            · exact ih (pupdate acc k0 v) ms hndrest hms k vs hrest m' h2
          · simp only [eq_false_of_ne_true hko, if_false]
            intro hstep; cases hstep; exact hres m' hm'
      | none =>
        by_cases hko : okf (acc ++ [(k0, v)]) = true
        · simp only [hx, hko, if_true]
          intro hstep
          obtain ⟨ms, hms, rfl⟩ := except_map_ok hstep
          rcases List.mem_append.mp hm' with h1 | h2
          · exact hres m' h1
          · exact ih (acc ++ [(k0, v)]) ms hndrest hms k vs hrest m' h2
        · simp only [hx, eq_false_of_ne_true hko, if_false]
          intro hstep; cases hstep; exact hres m' hm'

/-- **C4.** `ConflictPolicy` semantics on every lattice merge.  The
`Seed`, `Const`, `Product`, `Zip` and `Derive` ops all assign through
`_merge` (first three conjuncts), and the constrained-product search
handles conflicts in its DFS (last three conjuncts): whenever a key is
assigned while already bound to a conflicting (different under Python
`==`) value, `ERROR` raises; `FIRST_WINS` preserves the earliest value
of that key in every resulting map; `LAST_WINS` preserves the latest
(up to Python `==`, which is how the code compares values). -/
theorem C4_conflict_policy :
    (∀ (base extra : PyMap) (k : ParamName) (v w : Value),
        (k, v) ∈ extra → plookup base k = some w → pyEq w v = false →
        ∃ e, merge .ERROR base extra = .error e) ∧
    (∀ (base extra : PyMap),
        ∃ m, merge .FIRST_WINS base extra = .ok m ∧
          ∀ k w, plookup base k = some w → plookup m k = some w) ∧
    (∀ (base extra : PyMap), (pkeys extra).Nodup →
        ∃ m, merge .LAST_WINS base extra = .ok m ∧
          ∀ k v, plookup extra k = some v →
            ∃ w, plookup m k = some w ∧ pyEq w v = true) ∧
    (∀ (okf : PyMap → Bool) (k : ParamName) (vs : List Value)
        (rest : List (ParamName × List Value)) (base : PyMap)
        (w v : Value),
        plookup base k = some w → v ∈ vs → pyEq w v = false →
        ∃ e, dfs .ERROR okf ((k, vs) :: rest) base = .error e) ∧
    (∀ (okf : PyMap → Bool) (space : List (ParamName × List Value))
        (acc : PyMap) (out : List PyMap),
        dfs .FIRST_WINS okf space acc = .ok out →
        ∀ k w, plookup acc k = some w → ∀ m ∈ out, plookup m k = some w) ∧
    (∀ (okf : PyMap → Bool) (space : List (ParamName × List Value))
        (acc : PyMap) (out : List PyMap),
        (spaceKeys space).Nodup → dfs .LAST_WINS okf space acc = .ok out →
        ∀ k vs, (k, vs) ∈ space → ∀ m ∈ out,
          ∃ v ∈ vs, ∃ w, plookup m k = some w ∧ pyEq w v = true) := by
  refine ⟨?_, ?_, ?_, ?_, ?_, ?_⟩
  · intro base extra k v w hmem hw hne
    exact merge_error_of_conflict hmem hw hne
  · intro base extra
    exact merge_firstWins_ok base extra
  · intro base extra hnd
    exact merge_lastWins_ok base extra hnd
  · intro okf k vs rest base w v hw hv hne
    exact dfs_error_of_head_conflict hw hv hne
  · intro okf space acc out hdfs k w hw m hm
    exact dfs_firstWins_preserves space acc out hdfs k w hw m hm
  · intro okf space acc out hnd hdfs k vs hmem m hm
    exact dfs_lastWins_latest space acc out hnd hdfs k vs hmem m hm

/-- Witness for C4: the six conjuncts applied at concrete inputs, all
hypotheses discharged by evaluation. -/
theorem C4_conflict_policy_witness :
    (∃ e, merge .ERROR [("x", Value.vInt 1)] [("x", Value.vInt 2)] =
        .error e) ∧
    (∃ m, merge .FIRST_WINS [("x", Value.vInt 1)] [("x", Value.vInt 2)] =
        .ok m ∧ ∀ k w, plookup [("x", Value.vInt 1)] k = some w →
          plookup m k = some w) ∧
    (∃ m, merge .LAST_WINS [("x", Value.vInt 1)] [("x", Value.vInt 2)] =
        .ok m ∧ ∀ k v, plookup [("x", Value.vInt 2)] k = some v →
          ∃ w, plookup m k = some w ∧ pyEq w v = true) ∧
    (∃ e, dfs .ERROR (fun _ => true) [("x", [Value.vInt 2])]
        [("x", Value.vInt 1)] = .error e) ∧
    (∀ m ∈ [[("y", Value.vInt 1), ("x", Value.vInt 2)]],
        plookup m "y" = some (Value.vInt 1)) ∧
    (∀ m ∈ [[("x", Value.vInt 2)]],
        ∃ v ∈ [Value.vInt 2], ∃ w,
          plookup m "x" = some w ∧ pyEq w v = true) := by
  refine ⟨?_, ?_, ?_, ?_, ?_, ?_⟩
  · exact C4_conflict_policy.1 [("x", .vInt 1)] [("x", .vInt 2)]
      "x" (.vInt 2) (.vInt 1) (by decide) (by decide) (by decide)
  · exact C4_conflict_policy.2.1 [("x", .vInt 1)] [("x", .vInt 2)]
  · exact C4_conflict_policy.2.2.1 [("x", .vInt 1)] [("x", .vInt 2)]
      (by decide)
  · exact C4_conflict_policy.2.2.2.1 (fun _ => true) "x" [.vInt 2] []
      [("x", .vInt 1)] (.vInt 1) (.vInt 2) (by decide) (by decide)
      (by decide)
  · intro m hm
    exact C4_conflict_policy.2.2.2.2.1 (fun _ => true)
      [("x", [.vInt 2])] [("y", .vInt 1)]
      [[("y", Value.vInt 1), ("x", Value.vInt 2)]] (by rfl)
      "y" (.vInt 1) (by decide) m hm
  · intro m hm
    exact C4_conflict_policy.2.2.2.2.2 (fun _ => true)
      [("x", [.vInt 2])] [("x", .vInt 1)] [[("x", Value.vInt 2)]]
      (by decide) (by rfl) "x" [.vInt 2] (by decide) m hm

theorem replaceCharsFuel_self (pat : List Char) :
    ∀ (n : ℕ) (s : List Char), replaceCharsFuel pat pat n s = s := by
  intro n
  induction n with
  | zero => intro s; rw [replaceCharsFuel]
  | succ n ih =>
    intro s
    match s with
    | [] => rw [replaceCharsFuel]
    | c :: rest =>
      rw [replaceCharsFuel]
      by_cases h : pat ≠ [] ∧ pat.isPrefixOf (c :: rest)
      · rw [if_pos h]
        obtain ⟨t, ht⟩ := List.isPrefixOf_iff_prefix.mp h.2
        have hdrop : (c :: rest).drop pat.length = t := by
          rw [← ht]; exact List.drop_left pat t
        rw [hdrop, ih t]
        exact ht
      · rw [if_neg h, ih rest]

theorem replaceChars_self (pat s : List Char) :
    replaceChars s pat pat = s :=
  replaceCharsFuel_self pat s.length s

theorem pyReplace_self (pat s : String) : pyReplace s pat pat = s := by
  unfold pyReplace
  rw [replaceChars_self]

/-- **C6.** Newline policy is applied by the materializer, not the
renderer, and `Materializer.run` in `tasklattice/run/materialize.py`
implements exactly the claim's reference transformation (first
conjunct, for all plans and rendered strings — the code's skipping of
the `\n → newline` pass when the configured newline is `\n` is the
identity).  The legacy `Materializer.run` in
`tasklattice/materialize.py` does not: its doubly-escaped patterns
replace literal backslash sequences, so on the rendered text
`"a\r\nb"` with newline `"\n"` and `ensure_trailing_newline` it
produces `"a\r\nb\n"` where the claim demands `"a\nb\n"` (second and
third conjuncts evaluate both at that failing input). -/
theorem C6_newline_policy :
    (∀ (newline : Option String) (ensure : Bool) (text : String),
        applyNewlinePolicy newline ensure text =
          referenceNewline newline ensure text) ∧
    legacyNewlinePolicy (some "\n") true "a\r\nb" = "a\r\nb\n" ∧
    referenceNewline (some "\n") true "a\r\nb" = "a\nb\n" := by
  refine ⟨?_, by rfl, by rfl⟩
  intro newline ensure text
  cases newline with
  | none => rfl
  | some nl =>
    unfold applyNewlinePolicy referenceNewline
    by_cases h : nl = "\n"
    · subst h
      simp [pyReplace_self]
    · have : (nl == "\n") = false := by
        simp [h]
      simp [this]

/-- **C10.** Dedup at its failing input, and on the inputs it can
handle.  First conjunct: `_DedupOp.apply` raises `TypeError` on any
stream containing a map with two (or more) distinct keys — both the
primary `sorted` and its `repr` fallback compare `ParamName` keys,
which define no `<` — where the claim says the map is yielded.  Second
conjunct: on single-key maps the loop does keep the first occurrence of
each distinct map (under Python `==`, so `{a:1.0}` collapses with
`{a:1}`) in upstream order, which is the claim's intent. -/
theorem C10_dedup_type_error :
    LOp.apply .dedup [[("a", Value.vInt 1), ("b", Value.vInt 2)]] =
      .error
        "TypeError: '<' not supported between instances of 'ParamName'" ∧
    LOp.apply .dedup
        [[("a", Value.vInt 1)], [("a", Value.vFloat 1)],
         [("a", Value.vInt 2)], [("a", Value.vInt 1)]] =
      .ok [[("a", Value.vInt 1)], [("a", Value.vInt 2)]] := by
  exact ⟨rfl, rfl⟩

/-- **C8.** The default exclude list does not exclude the run-metadata
directory: the glob built from `RUN_METADATA_DIR` is `._tl/**`, not
`_tl/**`, so a prototype file under `_tl/` is matched by the default
include `**/*`, matched by no default exclude, and is copied — where
the claim (and the spec, "defaults exclude … the metadata directory")
says it is never copied.  The third conjunct shows the glob matches
only paths under a literal `._tl/` directory, which nothing in the
repository creates. -/
theorem C8_metadata_dir_copied :
    copyDecision DEFAULT_INCLUDE_GLOBS DEFAULT_EXCLUDE_GLOBS []
      "_tl/state.json" = true ∧
    fnmatch "_tl/state.json" ("." ++ RUN_METADATA_DIR ++ "/**") = false ∧
    copyDecision DEFAULT_INCLUDE_GLOBS DEFAULT_EXCLUDE_GLOBS []
      "._tl/state.json" = false := by
  exact ⟨rfl, rfl, rfl⟩

theorem runnerStep_preserves_inv :
    ∀ (o : RunnerOp) (s : RunnerRunState),
      runnerInv s → runnerInv (runnerStep s o) := by
  intro o
  cases o with
  | monitorExit rc =>
    cases hrc : (rc == 0) <;>
      · simp only [runnerStep, hrc]
        decide
  | submit => decide
  | spawnOk => decide
  | spawnFail => decide
  | monitorTimeout => decide
  | cancelQueued => decide
  | cancelRunningFlag => decide
  | finalizeFailed => decide
  | finalizeCancelled => decide

theorem runnerStep_keeps_terminal :
    ∀ (o : RunnerOp), o.isSubmit = false →
      ∀ s : RunnerRunState, runnerInv s → persistedTerminal s = true →
        persistedTerminal (runnerStep s o) = true := by
  intro o
  cases o with
  | monitorExit rc =>
    intro _
    cases hrc : (rc == 0) <;>
      · simp only [runnerStep, hrc]
        decide
  | submit => intro h; cases h
  | spawnOk => intro _; decide
  | spawnFail => intro _; decide
  | monitorTimeout => intro _; decide
  | cancelQueued => intro _; decide
  | cancelRunningFlag => intro _; decide
  | finalizeFailed => intro _; decide
  | finalizeCancelled => intro _; decide

theorem runTrace_inv (ops : List RunnerOp) : runnerInv (runTrace ops) := by
  have h : ∀ (l : List RunnerOp) (s : RunnerRunState),
      runnerInv s → runnerInv (l.foldl runnerStep s) := by
    intro l
    induction l with
    | nil => exact fun s h => h
    | cons o t ih =>
      intro s hs
      exact ih _ (runnerStep_preserves_inv o s hs)
  exact h ops initRunState (by decide)

/-- **C7 (amended).** Run-status monotonicity holds for every runner
operation except a fresh `submit`: for every sequence of runner
operations on one run directory, once the persisted run state is
terminal, no later non-`submit` operation (spawn, monitor timeout or
finalization, cancellation, attach finalization) writes a non-terminal
state.  (A resubmission deliberately writes `queued` again —
`LocalRunner.submit` increments the stored `attempt` and truncates the
logs — which is the counterexample to the claim as stated.) -/
theorem C7_terminal_monotonic (pre post : List RunnerOp)
    (hpost : ∀ o ∈ post, o.isSubmit = false)
    (hterm : persistedTerminal (runTrace pre) = true) :
    persistedTerminal (runTrace (pre ++ post)) = true := by
  have hfold : runTrace (pre ++ post) =
      post.foldl runnerStep (runTrace pre) := by
    unfold runTrace
    rw [List.foldl_append]
  rw [hfold]
  have hmain : ∀ (l : List RunnerOp) (s : RunnerRunState),
      (∀ o ∈ l, o.isSubmit = false) → runnerInv s →
      persistedTerminal s = true →
      persistedTerminal (l.foldl runnerStep s) = true := by
    intro l
    induction l with
    | nil => exact fun s _ _ ht => ht
    | cons o t ih =>
      intro s hl hinv ht
      exact ih (runnerStep s o)
        (fun o' ho' => hl o' (List.mem_cons_of_mem _ ho'))
        (runnerStep_preserves_inv o s hinv)
        (runnerStep_keeps_terminal o (hl o (List.mem_cons_self _ _)) s
          hinv ht)
  exact hmain post (runTrace pre) hpost (runTrace_inv pre) hterm

/-- Witness for C7: a run that was submitted, spawned and finalized
`failed` stays terminal through an attach finalization, a monitor
finalization and a queued-cancellation attempt. -/
theorem C7_terminal_monotonic_witness :
    persistedTerminal (runTrace
      ([.submit, .spawnOk, .monitorExit 1] ++
       [.finalizeCancelled, .monitorExit 0, .cancelQueued])) = true :=
  C7_terminal_monotonic [.submit, .spawnOk, .monitorExit 1]
    [.finalizeCancelled, .monitorExit 0, .cancelQueued]
    (by decide) (by decide)

/-- Counterexample to C7 as stated: `submit` is one of the enumerated
runner operations, and resubmitting a run whose persisted state is
terminal (`succeeded` here) writes the non-terminal `queued` again. -/
theorem C7_monotonicity_counterexample :
    persistedTerminal (runTrace [.submit, .spawnOk, .monitorExit 0]) =
      true ∧
    (runTrace [.submit, .spawnOk, .monitorExit 0, .submit]).persisted =
      some .QUEUED ∧
    RunStatus.QUEUED.isTerminal = false := by
  decide

theorem sortItems_perm (l : List (String × Value)) :
    (sortItems l).Perm l :=
  List.perm_insertionSort keyLe l

theorem sortItems_sorted (l : List (String × Value)) :
    List.Sorted keyLe (sortItems l) :=
  List.sorted_insertionSort keyLe l

theorem sorted_keyLt_of_nodup {l : List (String × Value)}
    (hs : List.Sorted keyLe l) (hnd : (l.map Prod.fst).Nodup) :
    List.Sorted keyLt l := by
  have hne : l.Pairwise (fun a b => a.1 ≠ b.1) :=
    (List.pairwise_map).mp hnd
  exact (hs.and hne).imp (fun h => lt_of_le_of_ne h.1 h.2)

theorem sortItems_eq_of_perm {s1 s2 : List (String × Value)}
    (hnd : (s1.map Prod.fst).Nodup) (hp : s1.Perm s2) :
    sortItems s1 = sortItems s2 := by
  have hp' : (sortItems s1).Perm (sortItems s2) :=
    (sortItems_perm s1).trans (hp.trans (sortItems_perm s2).symm)
  have hnd1 : ((sortItems s1).map Prod.fst).Nodup :=
    (((sortItems_perm s1).map Prod.fst).nodup_iff).mpr hnd
  have hnd2 : ((sortItems s2).map Prod.fst).Nodup :=
    (((sortItems_perm s2).map Prod.fst).nodup_iff).mpr
      (((hp.map Prod.fst).nodup_iff).mp hnd)
  exact List.eq_of_perm_of_sorted hp'
    (sorted_keyLt_of_nodup (sortItems_sorted s1) hnd1)
    (sorted_keyLt_of_nodup (sortItems_sorted s2) hnd2)

theorem compressRound_length (st : List Nat) (kw : Nat × Nat) :
    (compressRound st kw).length = 8 := rfl

theorem foldl_compressRound_length :
    ∀ (l : List (Nat × Nat)) (st : List Nat), st.length = 8 →
      (l.foldl compressRound st).length = 8 := by
  intro l
  induction l with
  | nil => exact fun st h => h
  | cons kw t ih =>
    intro st _
    exact ih (compressRound st kw) (compressRound_length st kw)

theorem compressChunk_length {H : List Nat} (chunk : List Nat)
    (hH : H.length = 8) : (compressChunk H chunk).length = 8 := by
  unfold compressChunk
  rw [List.length_zipWith,
    foldl_compressRound_length _ H hH, hH]
  rfl

theorem sha256State_length (msg : List Nat) :
    (sha256State msg).length = 8 := by
  unfold sha256State
  have h : ∀ (cs : List (List Nat)) (H : List Nat), H.length = 8 →
      (cs.foldl compressChunk H).length = 8 := by
    intro cs
    induction cs with
    | nil => exact fun H h => h
    | cons c t ih =>
      intro H hH
      exact ih (compressChunk H c) (compressChunk_length c hH)
  exact h _ H256 rfl

theorem flatten_map_word32Bytes_length (H : List Nat) :
    ((H.map word32Bytes).flatten).length = 4 * H.length := by
  induction H with
  | nil => rfl
  | cons w t ih =>
    simp only [List.map_cons, List.flatten_cons, List.length_append, ih,
      List.length_cons]
    simp [word32Bytes]
    omega

theorem sha256_length (msg : List Nat) : (sha256 msg).length = 32 := by
  unfold sha256
  rw [flatten_map_word32Bytes_length, sha256State_length]

theorem flatten_map_byteHex_length (bs : List Nat) :
    ((bs.map byteHex).flatten).length = 2 * bs.length := by
  induction bs with
  | nil => rfl
  | cons b t ih =>
    simp only [List.map_cons, List.flatten_cons, List.length_append, ih,
      List.length_cons]
    simp [byteHex]
    omega

theorem sha256hex_length (msg : List Nat) :
    (sha256hex msg).data.length = 64 := by
  show ((sha256 msg).map byteHex).flatten.length = 64
  rw [flatten_map_byteHex_length, sha256_length]

theorem hexDigit_mem (n : Nat) : hexDigit n ∈ hexChars := by
  unfold hexDigit
  have h : n % 16 < hexChars.length := by
    have : n % 16 < 16 := Nat.mod_lt n (by norm_num)
    simpa [hexChars] using this
  rw [List.getD_eq_getElem hexChars '0' h]
  exact List.getElem_mem h

theorem sha256hex_mem {msg : List Nat} {c : Char}
    (hc : c ∈ (sha256hex msg).data) : c ∈ hexChars := by
  have : c ∈ ((sha256 msg).map byteHex).flatten := hc
  rw [List.mem_flatten] at this
  obtain ⟨l, hl, hcl⟩ := this
  rw [List.mem_map] at hl
  obtain ⟨b, _, rfl⟩ := hl
  simp only [byteHex, List.mem_cons, List.not_mem_nil, or_false] at hcl
  rcases hcl with rfl | rfl <;> exact hexDigit_mem _

theorem hashStable_length (j : Json) : (hashStable j).length = 12 := by
  show ((sha256hex (utf8Encode (jsonDumps j))).data.take 12).length = 12
  rw [List.length_take, sha256hex_length]
  rfl

theorem hashStable_hex {j : Json} {c : Char}
    (hc : c ∈ (hashStable j).data) : c ∈ hexChars :=
  sha256hex_mem (List.take_subset 12 _ hc)

/-- **C3.** Run identifiers.  First conjunct: the subs fingerprint is a
pure, order-independent function of the `(key, value)` pairs — any two
iteration orders of the same mapping fingerprint identically.  Second
conjunct: `_subs_fingerprint` is exactly the first 12 characters of
the SHA-256 hex digest over the canonical JSON encoding (compact
separators, items sorted by stringified key) of the substitution
items.  Third and fourth: both fingerprints are 12 lowercase hex
characters (`_hash_stable` truncates the 64-character digest).  Fifth:
`run_id` is exactly `plan_fingerprint + "-" + subs_fingerprint`. -/
theorem C3_run_id_fingerprints :
    (∀ (s1 s2 : PyMap), (pkeys s1).Nodup → s1.Perm s2 →
        subs_fingerprint s1 = subs_fingerprint s2) ∧
    (∀ subs : PyMap, subs_fingerprint subs =
        strTake (sha256hex (utf8Encode (canonicalSubsBlob subs))) 12) ∧
    (∀ subs : PyMap, (subs_fingerprint subs).length = 12 ∧
        ∀ c ∈ (subs_fingerprint subs).data, c ∈ hexChars) ∧
    (∀ p : RunPlanKnobs, (plan_fingerprint p).length = 12 ∧
        ∀ c ∈ (plan_fingerprint p).data, c ∈ hexChars) ∧
    (∀ (p : RunPlanKnobs) (subs : PyMap),
        make_run_id (plan_fingerprint p) (subs_fingerprint subs) =
          plan_fingerprint p ++ "-" ++ subs_fingerprint subs) := by
  refine ⟨?_, ?_, ?_, ?_, ?_⟩
  · intro s1 s2 hnd hp
    unfold subs_fingerprint subsItems
    rw [sortItems_eq_of_perm hnd hp]
  · intro subs
    rfl
  · intro subs
    exact ⟨hashStable_length _, fun c hc => hashStable_hex hc⟩
  · intro p
    exact ⟨hashStable_length _, fun c hc => hashStable_hex hc⟩
  · intro p subs
    rfl

/-- Witness for C3: the same two bindings in both iteration orders
fingerprint identically, and a concrete fingerprint has length 12. -/
theorem C3_run_id_fingerprints_witness :
    subs_fingerprint [("b", Value.vInt 2), ("a", Value.vStr "x")] =
      subs_fingerprint [("a", Value.vStr "x"), ("b", Value.vInt 2)] ∧
    (subs_fingerprint [("b", Value.vInt 2), ("a", Value.vStr "x")]).length
      = 12 := by
  constructor
  · exact C3_run_id_fingerprints.1
      [("b", Value.vInt 2), ("a", Value.vStr "x")]
      [("a", Value.vStr "x"), ("b", Value.vInt 2)]
      (by decide) (by decide)
  · exact (C3_run_id_fingerprints.2.2.1
      [("b", Value.vInt 2), ("a", Value.vStr "x")]).1

theorem isCrOfCrLf_isBreak {c : Char} {rest : List Char}
    (h : isCrOfCrLf c rest = true) : isLineBreakChar c = true := by
  unfold isCrOfCrLf at h
  simp only [Bool.and_eq_true, beq_iff_eq] at h
  rw [h.1]
  rfl

theorem isCrOfCrLf_rest {c : Char} {rest : List Char}
    (h : isCrOfCrLf c rest = true) :
    ∃ rest', rest = '\n' :: rest' := by
  unfold isCrOfCrLf at h
  simp only [Bool.and_eq_true, beq_iff_eq] at h
  cases rest with
  | nil => simp at h
  | cons a r =>
    simp only [List.head?_cons, Option.some.injEq] at h
    exact ⟨r, by rw [h.2]⟩

theorem firstLine_append_rest (s : List Char) :
    firstLine s ++ restAfterLine s = s := by
  induction s with
  | nil => rfl
  | cons c rest ih =>
    by_cases h1 : isCrOfCrLf c rest = true
    · simp [firstLine, restAfterLine, h1, ih]
    · by_cases h2 : isLineBreakChar c = true
      · simp [firstLine, restAfterLine, h1, h2]
      · simp [firstLine, restAfterLine, h1, h2, ih]

theorem firstLine_ne_nil {s : List Char} (h : s ≠ []) :
    firstLine s ≠ [] := by
  cases s with
  | nil => exact absurd rfl h
  | cons c rest =>
    by_cases h1 : isCrOfCrLf c rest = true
    · simp [firstLine, h1]
    · by_cases h2 : isLineBreakChar c = true <;>
        simp [firstLine, h1, h2]

theorem firstLine_length_pos {s : List Char} (h : s ≠ []) :
    1 ≤ (firstLine s).length :=
  List.length_pos.mpr (firstLine_ne_nil h)

theorem length_split (s : List Char) :
    (firstLine s).length + (restAfterLine s).length = s.length := by
  have := congrArg List.length (firstLine_append_rest s)
  simpa using this

theorem restAfterLine_length_lt {s : List Char} (h : s ≠ []) :
    (restAfterLine s).length < s.length := by
  have h1 := length_split s
  have h2 := firstLine_length_pos h
  omega

theorem splitAux_acc :
    ∀ (s : List Char) (acc : List Char), s ≠ [] →
      splitAux s acc =
        (acc ++ firstLine s) :: splitlines (restAfterLine s) := by
  intro s
  induction s with
  | nil => intro acc h; exact absurd rfl h
  | cons c rest ih =>
    intro acc _
    by_cases h1 : isCrOfCrLf c rest = true
    · obtain ⟨rest', rfl⟩ := isCrOfCrLf_rest h1
      rw [show splitAux (c :: '\n' :: rest') acc =
            splitAux ('\n' :: rest') (acc ++ [c]) by
          simp [splitAux, h1]]
      rw [ih (acc ++ [c]) (by simp)]
      simp [firstLine, restAfterLine, h1]
    · by_cases h2 : isLineBreakChar c = true
      · simp only [splitAux, h1, if_false, h2, if_true,
          Bool.false_eq_true]
        simp [firstLine, restAfterLine, h1, h2, splitlines]
      · cases rest with
        | nil =>
          simp [splitAux, h1, h2, firstLine, restAfterLine,
            splitlines]
        | cons a r =>
          rw [show splitAux (c :: a :: r) acc =
                splitAux (a :: r) (acc ++ [c]) by
              simp [splitAux, h1, h2]]
          rw [ih (acc ++ [c]) (by simp)]
          simp [firstLine, restAfterLine, h1, h2]

theorem splitlines_cons {s : List Char} (h : s ≠ []) :
    splitlines s = firstLine s :: splitlines (restAfterLine s) := by
  have := splitAux_acc s [] h
  simpa [splitlines] using this

theorem map_add_add (X : List Nat) (a b : Nat) :
    (X.map (· + a)).map (· + b) = X.map (· + (a + b)) := by
  induction X with
  | nil => rfl
  | cons x r ih => simp [ih]; omega

theorem cumLengths_map :
    ∀ (parts : List (List Char)) (off : Nat),
      cumLengths parts off = (cumLengths parts 0).map (· + off) := by
  intro parts
  induction parts with
  | nil => intro off; rfl
  | cons p r ih =>
    intro off
    simp only [cumLengths, Nat.zero_add, List.map_cons]
    rw [ih (off + p.length), ih p.length, map_add_add,
      Nat.add_comm off p.length]

theorem computeLineStarts_cons {s : List Char} (h : s ≠ []) :
    computeLineStarts s =
      0 :: (computeLineStarts (restAfterLine s)).map
        (· + (firstLine s).length) := by
  unfold computeLineStarts
  rw [splitlines_cons h]
  simp only [cumLengths, Nat.zero_add, List.map_cons, List.map,
    Nat.zero_add]
  rw [cumLengths_map (splitlines (restAfterLine s)) (firstLine s).length]

theorem scan_zero (s : List Char) (line col : Nat) :
    scanLineCol s 0 line col = (line, col) := by
  cases s <;> rfl

theorem scan_first :
    ∀ (s : List Char) (pos line col : Nat),
      pos < (firstLine s).length →
      scanLineCol s pos line col = (line, col + pos) := by
  intro s
  induction s with
  | nil => intro pos line col h; simp [firstLine] at h
  | cons c rest ih =>
    intro pos line col h
    cases pos with
    | zero => simp [scan_zero]
    | succ p =>
      by_cases h1 : isCrOfCrLf c rest = true
      · rw [show scanLineCol (c :: rest) (p + 1) line col =
            scanLineCol rest p line (col + 1) by simp [scanLineCol, h1]]
        rw [ih p line (col + 1) (by simp [firstLine, h1] at h; omega)]
        simp [Nat.add_assoc, Nat.add_comm 1 p]
      · by_cases h2 : isLineBreakChar c = true
        · simp [firstLine, h1, h2] at h
        · rw [show scanLineCol (c :: rest) (p + 1) line col =
              scanLineCol rest p line (col + 1) by
              simp [scanLineCol, h1, h2]]
          rw [ih p line (col + 1)
            (by simp [firstLine, h1, h2] at h; omega)]
          simp [Nat.add_assoc, Nat.add_comm 1 p]

theorem scan_skip :
    ∀ (s : List Char) (pos line col : Nat),
      firstTerminated s = true → (firstLine s).length ≤ pos →
      scanLineCol s pos line col =
        scanLineCol (restAfterLine s) (pos - (firstLine s).length)
          (line + 1) 1 := by
  intro s
  induction s with
  | nil => intro pos line col h _; simp [firstTerminated] at h
  | cons c rest ih =>
    intro pos line col hterm hlen
    cases pos with
    | zero =>
      have := @firstLine_length_pos (c :: rest) (by simp)
      omega
    | succ p =>
      by_cases h1 : isCrOfCrLf c rest = true
      · rw [show scanLineCol (c :: rest) (p + 1) line col =
            scanLineCol rest p line (col + 1) by simp [scanLineCol, h1]]
        obtain ⟨rest', rfl⟩ := isCrOfCrLf_rest h1
        have hterm' : firstTerminated ('\n' :: rest') = true := by
          simp [firstTerminated, show isLineBreakChar '\n' = true from rfl]
        have hfl : (firstLine (c :: '\n' :: rest')).length =
            1 + (firstLine ('\n' :: rest')).length := by
          simp [firstLine, h1]
          omega
        rw [ih p line (col + 1) hterm' (by omega)]
        rw [show restAfterLine (c :: '\n' :: rest') =
            restAfterLine ('\n' :: rest') by
            simp [restAfterLine, h1]]
        congr 1
        omega
      · by_cases h2 : isLineBreakChar c = true
        · rw [show scanLineCol (c :: rest) (p + 1) line col =
              scanLineCol rest p (line + 1) 1 by
              simp [scanLineCol, h1, h2]]
          rw [show restAfterLine (c :: rest) = rest by
              simp [restAfterLine, h1, h2]]
          congr 1
          simp [firstLine, h1, h2]
        · have hterm' : firstTerminated rest = true := by
            simpa [firstTerminated, h2] using hterm
          rw [show scanLineCol (c :: rest) (p + 1) line col =
              scanLineCol rest p line (col + 1) by
              simp [scanLineCol, h1, h2]]
          have hfl : (firstLine (c :: rest)).length =
              1 + (firstLine rest).length := by
            simp [firstLine, h1, h2]
            omega
          rw [ih p line (col + 1) hterm' (by omega)]
          rw [show restAfterLine (c :: rest) = restAfterLine rest by
              simp [restAfterLine, h1, h2]]
          congr 1
          omega

theorem scan_shift :
    ∀ (s : List Char) (pos line d col : Nat),
      scanLineCol s pos (line + d) col =
        ((scanLineCol s pos line col).1 + d,
         (scanLineCol s pos line col).2) := by
  intro s
  induction s with
  | nil =>
    intro pos line d col
    cases pos <;> rfl
  | cons c rest ih =>
    intro pos line d col
    cases pos with
    | zero => simp [scan_zero]
    | succ p =>
      by_cases h1 : isCrOfCrLf c rest = true
      · rw [show ∀ L C, scanLineCol (c :: rest) (p + 1) L C =
            scanLineCol rest p L (C + 1) from fun L C => by
            simp [scanLineCol, h1]]
        rw [show ∀ L C, scanLineCol (c :: rest) (p + 1) L C =
            scanLineCol rest p L (C + 1) from fun L C => by
            simp [scanLineCol, h1]]
        exact ih p line d (col + 1)
      · by_cases h2 : isLineBreakChar c = true
        · rw [show ∀ L C, scanLineCol (c :: rest) (p + 1) L C =
              scanLineCol rest p (L + 1) 1 from fun L C => by
              simp [scanLineCol, h1, h2]]
          rw [show ∀ L C, scanLineCol (c :: rest) (p + 1) L C =
              scanLineCol rest p (L + 1) 1 from fun L C => by
              simp [scanLineCol, h1, h2]]
          rw [show line + d + 1 = line + 1 + d by omega]
          exact ih p (line + 1) d 1
        · rw [show ∀ L C, scanLineCol (c :: rest) (p + 1) L C =
              scanLineCol rest p L (C + 1) from fun L C => by
              simp [scanLineCol, h1, h2]]
          rw [show ∀ L C, scanLineCol (c :: rest) (p + 1) L C =
              scanLineCol rest p L (C + 1) from fun L C => by
              simp [scanLineCol, h1, h2]]
          exact ih p line d (col + 1)

theorem firstTerminated_false {s : List Char}
    (h : firstTerminated s = false) :
    restAfterLine s = [] ∧ firstLine s = s := by
  induction s with
  | nil => exact ⟨rfl, rfl⟩
  | cons c rest ih =>
    simp only [firstTerminated] at h
    by_cases h2 : isLineBreakChar c = true
    · rw [if_pos h2] at h; cases h
    · rw [if_neg h2] at h
      have h2f : isLineBreakChar c = false := by
        revert h2; cases isLineBreakChar c <;> simp
      have h1 : isCrOfCrLf c rest = false := by
        cases hb : isCrOfCrLf c rest
        · rfl
        · rw [isCrOfCrLf_isBreak hb] at h2f; cases h2f
      obtain ⟨ha, hb⟩ := ih h
      exact ⟨by simp [restAfterLine, h1, h2f, ha],
        by simp [firstLine, h1, h2f, hb]⟩

theorem endsWith_firstTerminated {s : List Char}
    (h : endsWithLineBreak s = true) : firstTerminated s = true := by
  induction s with
  | nil => simp [endsWithLineBreak, List.getLast?] at h
  | cons c rest ih =>
    by_cases h2 : isLineBreakChar c = true
    · simp [firstTerminated, h2]
    · cases rest with
      | nil =>
        exfalso
        apply h2
        simpa [endsWithLineBreak, List.getLast?] using h
      | cons a r =>
        have hend : endsWithLineBreak (a :: r) = true := by
          simpa [endsWithLineBreak, List.getLast?_cons_cons] using h
        rw [firstTerminated, if_neg h2]
        exact ih hend

theorem startsLE_head_lt {s : List Char} {pos : Nat} (hs : s ≠ [])
    (hlt : pos < (firstLine s).length) : startsLE s pos = 1 := by
  unfold startsLE
  rw [computeLineStarts_cons hs, List.countP_cons]
  rw [List.countP_map]
  rw [List.countP_eq_zero.mpr ?_]
  · simp
  · intro q _
    simp only [Function.comp_apply, decide_eq_true_eq]
    omega

theorem startsLE_head_le {s : List Char} {pos : Nat} (hs : s ≠ [])
    (hge : (firstLine s).length ≤ pos) :
    startsLE s pos =
      1 + startsLE (restAfterLine s) (pos - (firstLine s).length) := by
  unfold startsLE
  rw [computeLineStarts_cons hs, List.countP_cons]
  rw [List.countP_map]
  have hcong : ∀ q ∈ computeLineStarts (restAfterLine s),
      (((fun q => decide (q ≤ pos)) ∘ (· + (firstLine s).length)) q = true ↔
        decide (q ≤ pos - (firstLine s).length) = true) := by
    intro q _
    simp only [Function.comp_apply, decide_eq_true_eq]
    omega
  rw [List.countP_congr hcong]
  simp [Nat.add_comm]

theorem startsLE_pos (s : List Char) (pos : Nat) :
    1 ≤ startsLE s pos := by
  unfold startsLE computeLineStarts
  rw [List.countP_cons]
  simp

theorem startsLE_le_length (s : List Char) (pos : Nat) :
    startsLE s pos ≤ (computeLineStarts s).length := by
  unfold startsLE
  exact List.countP_le_length _

theorem starts_getD_le {s : List Char} {pos : Nat} (hs : s ≠ [])
    (hge : (firstLine s).length ≤ pos) :
    (computeLineStarts s).getD (startsLE s pos - 1) 0 =
      (computeLineStarts (restAfterLine s)).getD
        (startsLE (restAfterLine s) (pos - (firstLine s).length) - 1) 0 +
        (firstLine s).length := by
  set L := (firstLine s).length with hL
  set R := restAfterLine s with hR
  set cR := startsLE R (pos - L) with hcR
  have h1 : startsLE s pos = 1 + cR := startsLE_head_le hs hge
  have hcR1 : 1 ≤ cR := startsLE_pos R (pos - L)
  have hcRlen : cR ≤ (computeLineStarts R).length :=
    startsLE_le_length R (pos - L)
  rw [computeLineStarts_cons hs, h1]
  rw [show 1 + cR - 1 = cR by omega]
  obtain ⟨m, hmeq⟩ : ∃ m, cR = m + 1 := ⟨cR - 1, by omega⟩
  rw [hmeq]
  have hm : m < (computeLineStarts R).length := by omega
  have hm' : m < ((computeLineStarts R).map (· + L)).length := by
    simpa using hm
  rw [show List.getD (0 :: (computeLineStarts R).map (· + L))
      (m + 1) 0 = ((computeLineStarts R).map (· + L)).getD m 0
      from rfl]
  rw [show m + 1 - 1 = m by omega]
  rw [List.getD_eq_getElem _ _ hm', List.getD_eq_getElem _ _ hm]
  rw [List.getElem_map]

theorem scan_matches_starts :
    ∀ (n : Nat) (s : List Char) (pos : Nat), s.length ≤ n →
      pos ≤ s.length →
      (pos < s.length ∨ endsWithLineBreak s = true ∨ s = []) →
      scanLineCol s pos 1 1 =
        (startsLE s pos,
         pos - (computeLineStarts s).getD (startsLE s pos - 1) 0 + 1) ∧
      (computeLineStarts s).getD (startsLE s pos - 1) 0 ≤ pos := by
  intro n
  induction n with
  | zero =>
    intro s pos hlen hpos _
    have hs : s = [] := List.length_eq_zero.mp (Nat.le_zero.mp hlen)
    subst hs
    have hp : pos = 0 := by simpa using hpos
    subst hp
    exact ⟨rfl, by decide⟩
  | succ n ih =>
    intro s pos hlen hpos hcond
    by_cases hs : s = []
    · subst hs
      have hp : pos = 0 := by simpa using hpos
      subst hp
      exact ⟨rfl, by decide⟩
    · have hLpos := firstLine_length_pos hs
      have hsplit := length_split s
      by_cases hlt : pos < (firstLine s).length
      · have h1 := startsLE_head_lt hs hlt
        have hgd : (computeLineStarts s).getD (startsLE s pos - 1) 0 =
            0 := by
          rw [h1, computeLineStarts_cons hs]
          rfl
        refine ⟨?_, by rw [hgd]; omega⟩
        rw [scan_first s pos 1 1 hlt, hgd, h1]
        have : pos - 0 + 1 = 1 + pos := by omega
        rw [this]
      · have hge : (firstLine s).length ≤ pos := by omega
        by_cases hft : firstTerminated s = true
        · have hRlen : (restAfterLine s).length < s.length :=
            restAfterLine_length_lt hs
          have hcond' : pos - (firstLine s).length <
              (restAfterLine s).length ∨
              endsWithLineBreak (restAfterLine s) = true ∨
              restAfterLine s = [] := by
            rcases hcond with hc | hc | hc
            · left; omega
            · by_cases hR : restAfterLine s = []
              · right; right; exact hR
              · right; left
                have hsapp := firstLine_append_rest s
                unfold endsWithLineBreak at hc ⊢
                rw [← hsapp] at hc
                rwa [List.getLast?_append_of_ne_nil _ hR] at hc
            · exact absurd hc hs
          obtain ⟨IH1, IH2⟩ := ih (restAfterLine s)
            (pos - (firstLine s).length) (by omega) (by omega) hcond'
          have hskip := scan_skip s pos 1 1 hft hge
          have hshift := scan_shift (restAfterLine s)
            (pos - (firstLine s).length) 1 1 1
          have hcount := startsLE_head_le hs hge
          have hgd := starts_getD_le hs hge
          refine ⟨?_, ?_⟩
          · rw [hskip, hshift, IH1, hgd, hcount]
            refine Prod.ext ?_ ?_
            · simp [Nat.add_comm]
            · simp only
              omega
          · rw [hgd]
            omega
        · obtain ⟨hR, hL⟩ :=
            firstTerminated_false (Bool.of_not_eq_true hft)
          have hLlen : (firstLine s).length = s.length := by rw [hL]
          rcases hcond with hc | hc | hc
          · omega
          · exact absurd (endsWith_firstTerminated hc) hft
          · exact absurd hc hs

theorem cumLengths_ge :
    ∀ (parts : List (List Char)) (pos q : Nat),
      q ∈ cumLengths parts pos → pos ≤ q := by
  intro parts
  induction parts with
  | nil => intro pos q h; simp [cumLengths] at h
  | cons p r ih =>
    intro pos q h
    simp only [cumLengths, List.mem_cons] at h
    rcases h with rfl | h
    · omega
    · have := ih (pos + p.length) q h
      omega

theorem cumLengths_sorted :
    ∀ (parts : List (List Char)) (pos : Nat),
      (cumLengths parts pos).Sorted (· ≤ ·) := by
  intro parts
  induction parts with
  | nil => intro pos; simp [cumLengths]
  | cons p r ih =>
    intro pos
    simp only [cumLengths]
    refine List.sorted_cons.mpr ⟨?_, ih _⟩
    intro b hb
    exact cumLengths_ge r (pos + p.length) b hb

theorem computeLineStarts_sorted (s : List Char) :
    (computeLineStarts s).Sorted (· ≤ ·) := by
  unfold computeLineStarts
  refine List.sorted_cons.mpr ⟨?_, cumLengths_sorted _ 0⟩
  intro b _
  omega

theorem sorted_le_iff_lt_countP :
    ∀ (a : List Nat), a.Sorted (· ≤ ·) →
      ∀ (x i : Nat) (hi : i < a.length),
        (a.get ⟨i, hi⟩ ≤ x ↔ i < a.countP (fun q => q ≤ x)) := by
  intro a
  induction a with
  | nil => intro _ x i hi; simp at hi
  | cons b t ih =>
    intro hs x i hi
    obtain ⟨hb, ht⟩ := List.sorted_cons.mp hs
    rw [List.countP_cons]
    by_cases hbx : b ≤ x
    · rw [if_pos (by simpa using hbx)]
      cases i with
      | zero =>
        simp only [List.get]
        constructor
        · intro _; omega
        · intro _; exact hbx
      | succ j =>
        have hj : j < t.length := by
          simpa using hi
        have := ih ht x j hj
        simp only [List.get]
        rw [this]
        omega
    · rw [if_neg (by simpa using hbx)]
      have ht0 : t.countP (fun q => q ≤ x) = 0 := by
        apply List.countP_eq_zero.mpr
        intro q hq
        have := hb q hq
        simp only [decide_eq_true_eq]
        omega
      rw [ht0]
      cases i with
      | zero =>
        simp only [List.get]
        constructor
        · intro h; exact absurd h hbx
        · intro h; omega
      | succ j =>
        have hj : j < t.length := by
          simpa using hi
        simp only [List.get]
        constructor
        · intro h
          have h1 := hb (t.get ⟨j, hj⟩) (List.get_mem t j hj)
          omega
        · intro h; omega

theorem bisectRightFuel_correct :
    ∀ (fuel : Nat) (a : List Nat) (x lo hi : Nat),
      a.Sorted (· ≤ ·) →
      hi ≤ a.length →
      lo ≤ a.countP (fun q => q ≤ x) →
      a.countP (fun q => q ≤ x) ≤ hi →
      hi - lo ≤ fuel →
      bisectRightFuel a x fuel lo hi = a.countP (fun q => q ≤ x) := by
  intro fuel
  induction fuel with
  | zero =>
    intro a x lo hi _ _ hlo hhi hf
    simp only [bisectRightFuel]
    omega
  | succ n ih =>
    intro a x lo hi hs hhil hlo hhi hf
    simp only [bisectRightFuel]
    by_cases hlh : lo < hi
    · rw [if_pos hlh]
      have hmlo : lo ≤ (lo + hi) / 2 := by omega
      have hmhi : (lo + hi) / 2 < hi := by omega
      have hmlen : (lo + hi) / 2 < a.length := by omega
      have hchar := sorted_le_iff_lt_countP a hs x ((lo + hi) / 2) hmlen
      rw [List.getD_eq_getElem a 0 hmlen]
      by_cases hxm : x < a[(lo + hi) / 2]
      · rw [if_pos hxm]
        have hkm : a.countP (fun q => q ≤ x) ≤ (lo + hi) / 2 := by
          by_contra hc
          push_neg at hc
          have hle := hchar.mpr hc
          simp only [List.get_eq_getElem] at hle
          omega
        exact ih a x lo ((lo + hi) / 2) hs (by omega) hlo hkm (by omega)
      · rw [if_neg hxm]
        have hmk : (lo + hi) / 2 < a.countP (fun q => q ≤ x) := by
          apply hchar.mp
          simp only [List.get_eq_getElem]
          omega
        exact ih a x ((lo + hi) / 2 + 1) hi hs hhil (by omega) hhi
          (by omega)
    · rw [if_neg hlh]
      omega

theorem bisect_right_eq_countP {a : List Nat} (hs : a.Sorted (· ≤ ·))
    (x : Nat) : bisect_right a x = a.countP (fun q => q ≤ x) := by
  unfold bisect_right
  exact bisectRightFuel_correct a.length a x 0 a.length hs le_rfl
    (Nat.zero_le _) (List.countP_le_length _) (by omega)

theorem pos_to_line_col_eq_scan (s : List Char) (pos : Nat)
    (hpos : pos ≤ s.length)
    (hok : pos < s.length ∨ endsWithLineBreak s = true ∨ s = []) :
    pos_to_line_col s pos = .ok (linearLineCol s pos) := by
  obtain ⟨hscan, hle⟩ :=
    scan_matches_starts s.length s pos le_rfl hpos hok
  have hb : bisect_right (computeLineStarts s) pos = startsLE s pos :=
    bisect_right_eq_countP (computeLineStarts_sorted s) pos
  have h1 : 1 ≤ startsLE s pos := startsLE_pos s pos
  simp only [pos_to_line_col]
  rw [if_pos hpos, hb]
  unfold linearLineCol
  rw [hscan, Nat.sub_add_cancel h1]

/-- C9 (amended): for every text and every span with
`0 ≤ start < stop ≤ |contents|`, `Source.slice` returns exactly the
substring `contents[start:stop]`; and for every position
`0 ≤ pos ≤ |contents|` such that `pos < |contents|`, or the text ends
with a line terminator, or the text is empty, `pos_to_line_col`
returns the 1-indexed `(line, column)` pair a linear scan produces.
(The original claim asserted the `pos_to_line_col` conjunct for every
`pos ≤ |contents|`; it fails at `pos = |contents|` on non-empty text
whose last line is unterminated — see the counterexample.) -/
theorem C9_source_indexing (s : List Char) (start stop pos : Nat)
    (hspan : start < stop ∧ stop ≤ s.length) (hpos : pos ≤ s.length)
    (hok : pos < s.length ∨ endsWithLineBreak s = true ∨ s = []) :
    slice s start stop = .ok ((s.drop start).take (stop - start)) ∧
    pos_to_line_col s pos = .ok (linearLineCol s pos) := by
  constructor
  · unfold slice
    rw [if_pos ⟨le_of_lt hspan.1, hspan.2⟩, List.drop_take]
  · exact pos_to_line_col_eq_scan s pos hpos hok

/-- C9 counterexample to the unrestricted claim: on the two-character
unterminated text `"ab"`, position `2 = |contents|` is accepted by
`pos_to_line_col` (the spec says `p = |text|` is accepted) but the code
reports `(2, 1)` — the start of a phantom line after the end, because
`_compute_line_starts` always appends the final text length even when
the text does not end in a terminator — while a linear scan over the
text yields `(1, 3)`. -/
theorem C9_eof_counterexample :
    pos_to_line_col "ab".data 2 = .ok (2, 1) ∧
    linearLineCol "ab".data 2 = (1, 3) ∧
    ((2, 1) : Nat × Nat) ≠ (1, 3) := by
  refine ⟨rfl, rfl, by decide⟩

theorem matchPlaceholderAt_body {s b a : List Char}
    (h : matchPlaceholderAt s = some (b, a)) :
    ∃ p, b = 'T' :: 'L' :: p := by
  unfold matchPlaceholderAt at h
  split at h
  · split at h
    · split at h
      · split at h
        · split at h
          · injection h with h'
            exact ⟨_, (congrArg Prod.fst h').symm⟩
          · cases h
        · cases h
      · cases h
    · cases h
  · cases h

theorem findPlaceholder_body :
    ∀ (text pre body after : List Char),
      findPlaceholder text = some (pre, body, after) →
      ∃ p, body = 'T' :: 'L' :: p := by
  intro text
  induction text with
  | nil =>
    intro pre body after h
    simp [findPlaceholder] at h
  | cons c rest ih =>
    intro pre body after h
    rw [findPlaceholder] at h
    cases hm : matchPlaceholderAt (c :: rest) with
    | some pr =>
      obtain ⟨b0, a0⟩ := pr
      rw [hm] at h
      simp only [Option.some.injEq, Prod.mk.injEq] at h
      obtain ⟨h1, h2, h3⟩ := h
      obtain ⟨p, hp⟩ := matchPlaceholderAt_body hm
      exact ⟨p, by rw [← h2, hp]⟩
    | none =>
      rw [hm] at h
      cases hf : findPlaceholder rest with
      | none => rw [hf] at h; cases h
      | some tr =>
        obtain ⟨p0, b0, a0⟩ := tr
        rw [hf] at h
        simp only [Option.some.injEq, Prod.mk.injEq] at h
        obtain ⟨h1, h2, h3⟩ := h
        obtain ⟨p, hp⟩ := ih p0 b0 a0 hf
        exact ⟨p, by rw [← h2, hp]⟩

theorem parse_param_TL_error (p : List Char) :
    parse_param ('T' :: 'L' :: p) =
      .error "UnexpectedToken: expected OPEN_PH" := by
  have h : expectOpenPH ('T' :: 'L' :: p) = none := by
    have hd : dropWS ('T' :: 'L' :: p) = 'T' :: 'L' :: p := by
      rw [dropWS]
      have hw : isPyWS 'T' = false := by decide
      rw [hw]
      simp
    rw [expectOpenPH, hd]
    have hc : ('T' == openBrace && 'L' == openBrace) = false := by decide
    simp [hc]
  rw [parse_param, h]

theorem parse_param_scanned_error :
    ∀ (text pre body after : List Char),
      findPlaceholder text = some (pre, body, after) →
      parse_param body = .error "UnexpectedToken: expected OPEN_PH" := by
  intro text pre body after h
  obtain ⟨p, hp⟩ := findPlaceholder_body text pre body after h
  rw [hp]
  exact parse_param_TL_error p

/-- **C1.** Refuted — the template build crashes before any render.
The scanner's `span_inner` (`PLACEHOLDER_RE`'s `body` group) starts
at `TL` and excludes the surrounding braces, but the grammar's start
rule is `start: OPEN_PH TL_KW param CLOSE_PH`, whose first expected
terminal is the literal `\x7b\x7b`. So `parse_param(ph)` — which runs
that rule over `ph.text` — fails on the claim's template (and on
every scanner body whatsoever, third conjunct), hence
`Template.from_source` raises and rendering with `{n: 3}` can never
return anything, let alone the claimed output. The final two
conjuncts show the body is exactly `TL_KW` followed by a well-formed
`param` (yielding parameter `n`, default `1`, type label `int`,
interval domain `[0, 10]`): only the mismatched braces stop the
pipeline. -/
theorem C1_json_typed_scalar :
    findPlaceholder tmplC1 = some (preC1, bodyC1, postC1) ∧
    parse_param bodyC1 = .error "UnexpectedToken: expected OPEN_PH" ∧
    (∀ text : List Char,
      match findPlaceholder text with
      | some (_, body, _) =>
        parse_param body = .error "UnexpectedToken: expected OPEN_PH"
      | none => True) ∧
    expectTLKW bodyC1 = some " n = 1, type: int, domain: [0, 10]".data ∧
    parseParamBody " n = 1, type: int, domain: [0, 10]".data =
      .ok ⟨"n", .vInt 1, some "int",
        some (.intervalU (.vInt 0) (.vInt 10) '[' ']'), none⟩ := by
  refine ⟨rfl, rfl, ?_, rfl, rfl⟩
  intro text
  cases hf : findPlaceholder text with
  | none => trivial
  | some tr =>
    obtain ⟨pre, body, after⟩ := tr
    exact parse_param_scanned_error text pre body after hf

/-- **C5.** Refuted: booleans ARE accepted as integers at render time
when the parameter has no domain. For every parameter whose effective
type is `int` (its default is a non-boolean integer) and no domain,
`_validate_map` accepts a substitution binding it to a boolean —
`isinstance(svalue, param.py_type)` is `isinstance(bool_value, int)`,
which Python evaluates to `True` because `bool` subclasses `int` — so
`render` proceeds rather than failing validation as the claim states.
(The interval-domain path does reject booleans, but only through
`DomainInterval.contains`, not the type check, so the claimed
behaviour fails exactly in the domain-free case.) -/
theorem C5_bool_accepted_as_int (name : ParamName) (d : Int) (b : Bool) :
    isinstancePy (.vBool b)
      (ParamResolvedL.py_type ⟨name, .vInt d, none, none⟩) = true ∧
    validateMap [(name, ⟨name, .vInt d, none, none⟩)]
      [(name, .vBool b)] = .ok () := by
  constructor
  · simp [ParamResolvedL.py_type, typeOfValue, isinstancePy]
  · simp [validateMap, validateOne, paramsGet, ParamResolvedL.py_type,
      typeOfValue, isinstancePy]

theorem C9_source_indexing_witness :
    slice "ab\nc\r\nd\n".data 3 5 =
      .ok ((("ab\nc\r\nd\n".data).drop 3).take (5 - 3)) ∧
    pos_to_line_col "ab\nc\r\nd\n".data 5 =
      .ok (linearLineCol "ab\nc\r\nd\n".data 5) :=
  C9_source_indexing "ab\nc\r\nd\n".data 3 5 5 (by decide) (by decide)
    (Or.inl (by decide))

end TaskLattice
